import Mathlib

/-!
# OpenRemoteStart: frame reassembly engine

A shallow embedding of `src/ringbuffer.cpp` (the circular byte buffer) and
`src/fortinprocessor.cpp` (the byte-at-a-time frame reassembler), with the
properties of the natural-language specification stated over it.

Conventions of the embedding:
* `uint8_t` is `Fin 256`; the one place where 8-bit wraparound happens (the
  running checksum) is written with an explicit `% 256` on naturals.
* the `int` members `m_start_message`, `m_message_length`, `m_buffer_length`
  are naturals: they are only ever assigned `0`, incremented, or set from the
  allocation size.  The single subtraction of the source
  (`m_buffer->length()-1`) is evaluated over `Int`, as in C.
* the heap array `m_buffer` is a list of bytes; the constructor allocates
  `size` zeroed cells.
* the call `m_messageHandler(message, length)` is recorded: every operation
  returns the list of handler invocations it made, in order.
-/

set_option autoImplicit false
set_option maxRecDepth 8000

/-- The C type `uint8_t`. -/
abbrev Byte := Fin 256

/-! ## `ringbuffer.h` / `ringbuffer.cpp` -/

/-- Data members of `class RingBuffer`. -/
structure RingBuffer where
  m_buffer : List Byte
  m_start_message : Nat
  m_message_length : Nat
  m_buffer_length : Nat
deriving DecidableEq, Repr

/-- `RingBuffer::reset()`. -/
def RingBuffer.reset (r : RingBuffer) : RingBuffer :=
  { r with m_start_message := 0, m_message_length := 0 }

/-- `RingBuffer::RingBuffer(int size)`: allocate, `memset` to zero, record the
size, `reset()`. -/
def RingBuffer.construct (size : Nat) : RingBuffer :=
  RingBuffer.reset
    { m_buffer := List.replicate size 0
      m_start_message := 0
      m_message_length := 0
      m_buffer_length := size }

/-- `RingBuffer::addToBuffer(uint8_t b)`. -/
def RingBuffer.addToBuffer (r : RingBuffer) (b : Byte) : RingBuffer :=
  { r with
    m_buffer := r.m_buffer.set ((r.m_start_message + r.m_message_length) % r.m_buffer_length) b
    m_message_length := r.m_message_length + 1 }

/-- `RingBuffer::getFromBuffer(int index)`. -/
def RingBuffer.getFromBuffer (r : RingBuffer) (index : Nat) : Byte :=
  r.m_buffer.getD ((r.m_start_message + index) % r.m_buffer_length) 0

/-- `RingBuffer::length()`. -/
def RingBuffer.length (r : RingBuffer) : Nat := r.m_message_length

/-- `RingBuffer::maxLength()`. -/
def RingBuffer.maxLength (r : RingBuffer) : Nat := r.m_buffer_length

/-! ## `fortinprocessor.h` / `fortinprocessor.cpp` -/

/-- Data members of `class FortinProcessor`.  The handler pointer is not
state: its invocations are returned by the operations. -/
structure FortinProcessor where
  m_buffer : RingBuffer
deriving DecidableEq, Repr

/-- One invocation `m_messageHandler(message, length)`. -/
abbrev HandlerCall := List Byte × Nat

/-- `FortinProcessor::FortinProcessor(RingBuffer *buffer, ...)`. -/
def FortinProcessor.construct (buffer : RingBuffer) : FortinProcessor :=
  { m_buffer := buffer }

/-- `FortinProcessor::reset()`. -/
def FortinProcessor.reset (p : FortinProcessor) : FortinProcessor :=
  { m_buffer := p.m_buffer.reset }

/-- The loop of `handlePotentiallyValid`:
`uint8_t checksum = 0; for(int i = 1; i < length-2; i++) checksum += message[i];`
It is only reached with `length >= 3`, where `i` ranges over `1 .. length-3`. -/
def FortinProcessor.checksumLoop (message : List Byte) (length : Nat) : Nat :=
  (List.range' 1 (length - 3)).foldl
    (fun checksum i => (checksum + (message.getD i 0).val) % 256) 0

/-- `FortinProcessor::handlePotentiallyValid(uint8_t *message, int length)`. -/
def FortinProcessor.handlePotentiallyValid (p : FortinProcessor)
    (message : List Byte) (length : Nat) : FortinProcessor × List HandlerCall :=
  if length < 3 ∨ message.getD (length - 1) 0 ≠ 0x0D then
    (p, [])
  else
    let checksum := FortinProcessor.checksumLoop message length
    if checksum ≠ (message.getD (length - 2) 0).val then
      (p, [])
    else
      ({ m_buffer := p.m_buffer.reset }, [(message, length)])

/-- Lines 21-25 of `FortinProcessor::add`: the capacity test
`maxLength() == length()-1` with its `reset()`, then `addToBuffer(b)`. -/
def FortinProcessor.guardedAppend (r : RingBuffer) (b : Byte) : RingBuffer :=
  let r1 := if (r.maxLength : Int) = (r.length : Int) - 1 then r.reset else r
  r1.addToBuffer b

/-- The local array `uint8_t message[length()]` of `FortinProcessor::add`,
filled by `message[i] = getFromBuffer(i)` for `i < length()`. -/
def FortinProcessor.copyMessage (r : RingBuffer) : List Byte :=
  (List.range r.length).map r.getFromBuffer

/-- `FortinProcessor::add(uint8_t b)`. -/
def FortinProcessor.add (p : FortinProcessor) (b : Byte) :
    FortinProcessor × List HandlerCall :=
  if p.m_buffer.length = 0 ∧ b ≠ 0x0C then
    (p, [])
  else
    let r := FortinProcessor.guardedAppend p.m_buffer b
    if 7 ≤ r.length then
      let payloadSize := (r.getFromBuffer 4).val
      if r.length ≠ payloadSize + 7 then
        ({ m_buffer := r }, [])
      else
        FortinProcessor.handlePotentiallyValid { m_buffer := r }
          (FortinProcessor.copyMessage r) r.length
    else
      ({ m_buffer := r }, [])

/-! ## Driving the reassembler -/

/-- A call a client can make on a `FortinProcessor`. -/
inductive Op where
  | add (b : Byte)
  | reset
deriving DecidableEq, Repr

/-- One client call, with the handler invocations it caused. -/
def FortinProcessor.step (p : FortinProcessor) : Op → FortinProcessor × List HandlerCall
  | Op.add b => p.add b
  | Op.reset => (p.reset, [])

/-- A sequence of client calls; the second component lists, call by call, the
handler invocations made during that call. -/
def FortinProcessor.run (p : FortinProcessor) : List Op → FortinProcessor × List (List HandlerCall)
  | [] => (p, [])
  | o :: os =>
    let r := p.step o
    let rest := FortinProcessor.run r.1 os
    (rest.1, r.2 :: rest.2)

/-- Feeding bytes one at a time through `add`. -/
def FortinProcessor.feed (p : FortinProcessor) (bs : List Byte) :
    FortinProcessor × List (List HandlerCall) :=
  p.run (bs.map Op.add)

/-- A freshly constructed reassembler over a buffer of capacity `C`. -/
def FortinProcessor.fresh (C : Nat) : FortinProcessor :=
  FortinProcessor.construct (RingBuffer.construct C)

/-- The state reached from a fresh reassembler of capacity `C` by `ops`. -/
def FortinProcessor.after (C : Nat) (ops : List Op) : FortinProcessor :=
  ((FortinProcessor.fresh C).run ops).1

/-- A sequence of `addToBuffer` and `reset` calls on a bare `RingBuffer`
(`none` stands for `reset()`). -/
def RingBuffer.runOps (r : RingBuffer) : List (Option Byte) → RingBuffer
  | [] => r
  | some b :: os => RingBuffer.runOps (r.addToBuffer b) os
  | none :: os => RingBuffer.runOps r.reset os

/-- Appending a sequence of bytes in order. -/
def RingBuffer.addAll (r : RingBuffer) (xs : List Byte) : RingBuffer :=
  xs.foldl RingBuffer.addToBuffer r

/-! ## Vocabulary of the specification -/

/-- Sum of the bytes at offsets `1 .. length-3` of `message`, as a natural
number (no wraparound). -/
def interiorSum (message : List Byte) (length : Nat) : Nat :=
  ((List.range' 1 (length - 3)).map (fun i => (message.getD i 0).val)).sum

/-- The buffer holds a complete, valid candidate frame: at least 7 bytes,
length equal to the payload-size byte plus 7, terminator `0x0D`, and the
8-bit sum of offsets `1 .. length-3` equal to the byte at offset `length-2`. -/
def RingBuffer.holdsValidFrame (r : RingBuffer) : Prop :=
  7 ≤ r.length ∧ r.length = (r.getFromBuffer 4).val + 7 ∧
  r.getFromBuffer (r.length - 1) = 0x0D ∧
  ((List.range' 1 (r.length - 3)).map (fun i => (r.getFromBuffer i).val)).sum % 256
    = (r.getFromBuffer (r.length - 2)).val

instance (r : RingBuffer) : Decidable r.holdsValidFrame := by
  unfold RingBuffer.holdsValidFrame; infer_instance

/-! ## Auxiliary predicates and example data -/

/-- The backing array has exactly `m_buffer_length` cells. -/
def RingBuffer.WF (r : RingBuffer) : Prop :=
  r.m_buffer.length = r.m_buffer_length

instance (r : RingBuffer) : Decidable r.WF := by
  unfold RingBuffer.WF; infer_instance

/-- The test that `handlePotentiallyValid` applies before it calls the handler. -/
def FortinProcessor.accepts (message : List Byte) (length : Nat) : Prop :=
  3 ≤ length ∧ message.getD (length - 1) 0 = 0x0D ∧
    interiorSum message length % 256 = (message.getD (length - 2) 0).val

/-- The path of `add` that ends in the handler call: the byte is not
discarded by the idle test, and the buffer after the append passes the length
test of `add` and the tests of `handlePotentiallyValid`. -/
def FortinProcessor.dispatches (p : FortinProcessor) (b : Byte) : Prop :=
  ¬ (p.m_buffer.length = 0 ∧ b ≠ 0x0C) ∧
  7 ≤ (FortinProcessor.guardedAppend p.m_buffer b).length ∧
  (FortinProcessor.guardedAppend p.m_buffer b).length
    = ((FortinProcessor.guardedAppend p.m_buffer b).getFromBuffer 4).val + 7 ∧
  FortinProcessor.accepts (FortinProcessor.copyMessage (FortinProcessor.guardedAppend p.m_buffer b))
    (FortinProcessor.guardedAppend p.m_buffer b).length

/-- Example data: the valid frame of the specification's first scenario. -/
def exampleFrame : List Byte := [0x0C, 0x01, 0x02, 0x03, 0x00, 0x06, 0x0D]

/-- Example data: two noise bytes, then all but the last byte of `exampleFrame`. -/
def exampleOps : List Op :=
  [Op.add 0xAA, Op.add 0xBB, Op.add 0x0C, Op.add 0x01, Op.add 0x02, Op.add 0x03,
   Op.add 0x00, Op.add 0x06]

/-- Example data: appends that wrap around a buffer of capacity 4, a reset,
and one more append. -/
def exampleRingOps : List (Option Byte) :=
  [some 1, some 2, some 3, some 4, some 5, some 6, none, some 7]

/-- Example data: nine bytes that fill a buffer of capacity 8 and one more;
the payload-size byte `0xFF` keeps the length test of `add` from matching. -/
def overrunBytes : List Byte := [0x0C, 0xFF, 0xFF, 0xFF, 0xFF, 0xFF, 0xFF, 0xFF, 0xFF]

/-- Example data: a byte sequence with valid payload size, checksum and
terminator whose first byte is `0xAA`, not the sync marker. -/
def unsyncedFrame : List Byte := [0xAA, 0x01, 0x02, 0x03, 0x00, 0x06, 0x0D]

/-- Example data: eight bytes that fill a buffer of capacity 8, with payload
size 2 (expected frame length 9). -/
def fullBufferBytes : List Byte := [0x0C, 0x00, 0x00, 0x00, 0x02, 0x00, 0x00, 0x00]

/-- What every call preserves: the backing array keeps its size, the start
offset stays 0, and the length never passes the capacity by more than one. -/
def FortinProcessor.Inv (C : Nat) (p : FortinProcessor) : Prop :=
  p.m_buffer.WF ∧ p.m_buffer.m_buffer_length = C ∧ p.m_buffer.m_start_message = 0 ∧
    p.m_buffer.length ≤ C + 1

/-- Two buffers of the same capacity, start offset and length in which every
read inside the logical window returns the same byte; cells outside the
window may differ. -/
def RingBuffer.SameView (r r' : RingBuffer) : Prop :=
  r.WF ∧ r'.WF ∧ 1 ≤ r.m_buffer_length ∧ r.m_buffer_length = r'.m_buffer_length ∧
  r.m_start_message = r'.m_start_message ∧ r.length = r'.length ∧
  ∀ i, i < r.length → r.getFromBuffer i = r'.getFromBuffer i

/-- Example data: four bytes of a frame in progress. -/
def fourByteOps : List Op := [Op.add 0x0C, Op.add 0x55, Op.add 0x66, Op.add 0x77]

/-- Example data: twenty bytes without a terminator, so that no frame ever
completes. -/
def twentyBytes : List Byte :=
  [0x0C, 0xFF, 0xFF, 0xFF, 0xFF, 0xFF, 0xFF, 0xFF, 0xFF, 0xFF,
   0xFF, 0xFF, 0xFF, 0xFF, 0xFF, 0xFF, 0xFF, 0xFF, 0xFF, 0xFF]

/-- The condition under which `add` executes the `m_buffer->reset()` of its
capacity test (line 23): the idle test did not return and
`maxLength() == length()-1` holds. -/
def FortinProcessor.guardResets (p : FortinProcessor) (b : Byte) : Prop :=
  ¬ (p.m_buffer.length = 0 ∧ b ≠ 0x0C) ∧
  (p.m_buffer.maxLength : Int) = (p.m_buffer.length : Int) - 1

/-- Example data: the first six bytes of the specification's second scenario,
a frame whose checksum byte is `0x07` instead of `0x06`. -/
def badChecksumOps : List Op :=
  [Op.add 0x0C, Op.add 0x01, Op.add 0x02, Op.add 0x03, Op.add 0x00, Op.add 0x07]

/-! ## A monitored execution of `add`

The same statements as `FortinProcessor::add` and the functions it calls, run
with a monitor that stops at the first event of interest and reports it. -/

/-- What the monitor can report. -/
inductive Report where
  /-- A `% m_buffer_length` was evaluated with `m_buffer_length == 0`. -/
  | moduloByZero
  /-- `getFromBuffer(index)` was called with `index` outside `[0, length())`. -/
  | readOutsideLength (index length : Nat)
  /-- `message[j]` was accessed in `handlePotentiallyValid` with `j` outside
  `[0, length)`. -/
  | messageIndex (j length : Nat)
  /-- The test `length < 3` of `handlePotentiallyValid` was true. -/
  | lengthBelowThree (length : Nat)
deriving DecidableEq, Repr

/-- `RingBuffer::addToBuffer`, monitored. -/
def RingBuffer.addToBufferMonitored (r : RingBuffer) (b : Byte) : Except Report RingBuffer :=
  if r.m_buffer_length = 0 then Except.error Report.moduloByZero
  else Except.ok (r.addToBuffer b)

/-- `RingBuffer::getFromBuffer`, monitored. -/
def RingBuffer.getFromBufferMonitored (r : RingBuffer) (index : Nat) : Except Report Byte :=
  if ¬ index < r.length then Except.error (Report.readOutsideLength index r.length)
  else if r.m_buffer_length = 0 then Except.error Report.moduloByZero
  else Except.ok (r.getFromBuffer index)

/-- The copy loop of `add`, `message[i] = getFromBuffer(i)`, over the
remaining values of `i`, monitored. -/
def FortinProcessor.copyLoopMonitored (r : RingBuffer) : List Nat → Except Report (List Byte)
  | [] => Except.ok []
  | i :: is =>
    match r.getFromBufferMonitored i with
    | Except.error e => Except.error e
    | Except.ok x =>
      match FortinProcessor.copyLoopMonitored r is with
      | Except.error e => Except.error e
      | Except.ok xs => Except.ok (x :: xs)

/-- An access `message[j]` to the array of `length` bytes, monitored. -/
def FortinProcessor.messageAt (message : List Byte) (length j : Nat) : Except Report Byte :=
  if j < length then
    match message[j]? with
    | some x => Except.ok x
    | none => Except.error (Report.messageIndex j length)
  else Except.error (Report.messageIndex j length)

/-- The checksum loop of `handlePotentiallyValid` over the remaining values of
`i`, monitored. -/
def FortinProcessor.checksumLoopMonitored (message : List Byte) (length : Nat) :
    List Nat → Nat → Except Report Nat
  | [], checksum => Except.ok checksum
  | i :: is, checksum =>
    match FortinProcessor.messageAt message length i with
    | Except.error e => Except.error e
    | Except.ok x =>
      FortinProcessor.checksumLoopMonitored message length is ((checksum + x.val) % 256)

/-- `FortinProcessor::handlePotentiallyValid`, monitored. -/
def FortinProcessor.handlePotentiallyValidMonitored (p : FortinProcessor)
    (message : List Byte) (length : Nat) : Except Report (FortinProcessor × List HandlerCall) :=
  if length < 3 then Except.error (Report.lengthBelowThree length)
  else
    match FortinProcessor.messageAt message length (length - 1) with
    | Except.error e => Except.error e
    | Except.ok last =>
      if last ≠ 0x0D then Except.ok (p, [])
      else
        match FortinProcessor.checksumLoopMonitored message length
            (List.range' 1 (length - 3)) 0 with
        | Except.error e => Except.error e
        | Except.ok checksum =>
          match FortinProcessor.messageAt message length (length - 2) with
          | Except.error e => Except.error e
          | Except.ok stored =>
            if checksum ≠ stored.val then Except.ok (p, [])
            else Except.ok ({ m_buffer := p.m_buffer.reset }, [(message, length)])

/-- `FortinProcessor::add`, monitored. -/
def FortinProcessor.addMonitored (p : FortinProcessor) (b : Byte) :
    Except Report (FortinProcessor × List HandlerCall) :=
  if p.m_buffer.length = 0 ∧ b ≠ 0x0C then Except.ok (p, [])
  else
    let r1 := if (p.m_buffer.maxLength : Int) = (p.m_buffer.length : Int) - 1
      then p.m_buffer.reset else p.m_buffer
    match r1.addToBufferMonitored b with
    | Except.error e => Except.error e
    | Except.ok r =>
      if 7 ≤ r.length then
        match r.getFromBufferMonitored 4 with
        | Except.error e => Except.error e
        | Except.ok payloadSize =>
          if r.length ≠ payloadSize.val + 7 then Except.ok ({ m_buffer := r }, [])
          else
            match FortinProcessor.copyLoopMonitored r (List.range r.length) with
            | Except.error e => Except.error e
            | Except.ok message =>
              FortinProcessor.handlePotentiallyValidMonitored { m_buffer := r } message r.length
      else Except.ok ({ m_buffer := r }, [])

/-! ## `shell.h` / `shell.cpp`: the input line buffer -/

/-- The data members of `class Shell` that `processSerial` reads and writes
when it collects a line: `int _inBufferIndex = 0; char _inBuffer[128];`.
A `char` is kept as its integer value. -/
structure Shell where
  _inBufferIndex : Int
  _inBuffer : List Int
deriving DecidableEq, Repr

/-- `sizeof(_inBuffer)`. -/
def Shell.sizeofInBuffer : Int := 128

/-- `Shell::Shell(...)`: `_inBufferIndex` starts at 0 and `_inBuffer` is
cleared by `memset`. -/
def Shell.construct : Shell :=
  { _inBufferIndex := 0, _inBuffer := List.replicate 128 0 }

/-- `Shell::_resetInput()`; printing the prompt does not touch the state. -/
def Shell._resetInput (s : Shell) : Shell :=
  { s with _inBufferIndex := 0 }

/-- The assignment `_inBuffer[i] = c`. -/
def Shell.store (s : Shell) (i : Int) (c : Int) : Shell :=
  { s with _inBuffer := s._inBuffer.set i.toNat c }

/-- One iteration of the loop of `Shell::processSerial` for the received
character `c` (the value of `char in = Serial.read()`), returning the new
state and the indices of `_inBuffer` written during the iteration.  The call
`_handleInput(String(_inBuffer))` works on a copy of the line and on the
serial port; it leaves `_inBufferIndex` and `_inBuffer` alone. -/
def Shell.processChar (s : Shell) (c : Int) : Shell × List Int :=
  if c = -1 then (s, [])
  else if c = 13 then (s, [])
  else if c = 10 then
    ((s.store s._inBufferIndex 0)._resetInput, [s._inBufferIndex])
  else if c = 0x08 ∨ c = 0x7F then
    if s._inBufferIndex > 0 then ({ s with _inBufferIndex := s._inBufferIndex - 1 }, [])
    else (s, [])
  else if c = 0x03 then (s._resetInput, [])
  else
    let s1 := { s.store s._inBufferIndex c with _inBufferIndex := s._inBufferIndex + 1 }
    if s1._inBufferIndex = Shell.sizeofInBuffer - 2 then (s1._resetInput, [s._inBufferIndex])
    else (s1, [s._inBufferIndex])

/-- The loop of `Shell::processSerial` over the characters available on the
serial port, with all the indices of `_inBuffer` written, in order. -/
def Shell.processSerial (s : Shell) : List Int → Shell × List Int
  | [] => (s, [])
  | c :: cs =>
    let r := s.processChar c
    let rest := Shell.processSerial r.1 cs
    (rest.1, r.2 ++ rest.2)

/-! ## The circular buffer -/

theorem RingBuffer.construct_WF (size : Nat) : (RingBuffer.construct size).WF := by
  simp [RingBuffer.WF, RingBuffer.construct, RingBuffer.reset]

theorem RingBuffer.reset_WF {r : RingBuffer} (h : r.WF) : r.reset.WF := by
  simpa [RingBuffer.WF, RingBuffer.reset] using h

theorem RingBuffer.addToBuffer_WF {r : RingBuffer} (h : r.WF) (b : Byte) :
    (r.addToBuffer b).WF := by
  simpa [RingBuffer.WF, RingBuffer.addToBuffer] using h

theorem slot_injective {C s i j : Nat} (hi : i < C) (hj : j < C)
    (h : (s + i) % C = (s + j) % C) : i = j := by
  have h1 : i ≡ j [MOD C] := Nat.ModEq.add_left_cancel' s h
  have h2 : i % C = j % C := h1
  rwa [Nat.mod_eq_of_lt hi, Nat.mod_eq_of_lt hj] at h2

theorem RingBuffer.getFromBuffer_addToBuffer_last {r : RingBuffer} (h : r.WF)
    (hC : 1 ≤ r.m_buffer_length) (b : Byte) :
    (r.addToBuffer b).getFromBuffer r.length = b := by
  have hlt : (r.m_start_message + r.m_message_length) % r.m_buffer_length < r.m_buffer.length := by
    rw [h]; exact Nat.mod_lt _ (by omega)
  simp [RingBuffer.getFromBuffer, RingBuffer.addToBuffer, RingBuffer.length, List.getD_eq_getElem?_getD,
    List.getElem?_set, hlt]

theorem RingBuffer.getFromBuffer_addToBuffer_earlier {r : RingBuffer}
    (hlen : r.length < r.m_buffer_length) (b : Byte) {i : Nat} (hi : i < r.length) :
    (r.addToBuffer b).getFromBuffer i = r.getFromBuffer i := by
  have hne : (r.m_start_message + r.m_message_length) % r.m_buffer_length
      ≠ (r.m_start_message + i) % r.m_buffer_length := by
    intro he
    have := slot_injective (by simpa [RingBuffer.length] using hlen)
      (by simp only [RingBuffer.length] at hi hlen; omega) he
    simp only [RingBuffer.length] at hi; omega
  simp [RingBuffer.getFromBuffer, RingBuffer.addToBuffer, List.getD_eq_getElem?_getD,
    List.getElem?_set, hne]

theorem FortinProcessor.copyMessage_length (r : RingBuffer) :
    (FortinProcessor.copyMessage r).length = r.length := by
  simp [FortinProcessor.copyMessage]

theorem FortinProcessor.copyMessage_getD (r : RingBuffer) {i : Nat} (hi : i < r.length) :
    (FortinProcessor.copyMessage r).getD i 0 = r.getFromBuffer i := by
  simp [FortinProcessor.copyMessage, List.getD_eq_getElem?_getD, hi]

theorem FortinProcessor.copyMessage_addToBuffer {r : RingBuffer} (h : r.WF)
    (hlen : r.length < r.m_buffer_length) (b : Byte) :
    FortinProcessor.copyMessage (r.addToBuffer b) = FortinProcessor.copyMessage r ++ [b] := by
  apply List.ext_getElem
  · simp [FortinProcessor.copyMessage, RingBuffer.length, RingBuffer.addToBuffer]
  · intro i h1 h2
    have hi : i < r.length + 1 := by
      simpa [FortinProcessor.copyMessage, RingBuffer.length, RingBuffer.addToBuffer] using h1
    by_cases hlt : i < r.length
    · have hl : i < (FortinProcessor.copyMessage r).length := by
        simpa [FortinProcessor.copyMessage] using hlt
      rw [List.getElem_append_left hl]
      simp [FortinProcessor.copyMessage, RingBuffer.getFromBuffer_addToBuffer_earlier hlen b hlt]
    · have hieq : i = r.length := by omega
      subst hieq
      have hC : 1 ≤ r.m_buffer_length := by omega
      simp [FortinProcessor.copyMessage, List.getElem_append_right,
        RingBuffer.getFromBuffer_addToBuffer_last h hC b]

/-! ## The validation step -/

theorem foldl_add_mod (l : List Nat) (a : Nat) :
    l.foldl (fun c x => (c + x) % 256) (a % 256) = (a + l.sum) % 256 := by
  induction l generalizing a with
  | nil => simp
  | cons x xs ih =>
    simp only [List.foldl_cons, List.sum_cons]
    rw [Nat.mod_add_mod, ih (a + x), Nat.add_assoc]

theorem FortinProcessor.checksumLoop_eq (message : List Byte) (length : Nat) :
    FortinProcessor.checksumLoop message length = interiorSum message length % 256 := by
  have h := foldl_add_mod ((List.range' 1 (length - 3)).map (fun i => (message.getD i 0).val)) 0
  simp only [List.foldl_map, Nat.zero_mod, Nat.zero_add] at h
  simpa [FortinProcessor.checksumLoop, interiorSum] using h

theorem FortinProcessor.handlePotentiallyValid_of_accepts (p : FortinProcessor)
    {message : List Byte} {length : Nat} (h : FortinProcessor.accepts message length) :
    p.handlePotentiallyValid message length = ({ m_buffer := p.m_buffer.reset }, [(message, length)]) := by
  obtain ⟨h3, ht, hc⟩ := h
  unfold FortinProcessor.handlePotentiallyValid
  rw [if_neg (by rintro (hl | hne); exacts [by omega, hne ht])]
  dsimp only
  rw [if_neg (by rw [FortinProcessor.checksumLoop_eq]; exact fun hne => hne hc)]

theorem FortinProcessor.handlePotentiallyValid_of_not_accepts (p : FortinProcessor)
    {message : List Byte} {length : Nat} (h : ¬ FortinProcessor.accepts message length) :
    p.handlePotentiallyValid message length = (p, []) := by
  unfold FortinProcessor.handlePotentiallyValid
  by_cases h1 : length < 3 ∨ message.getD (length - 1) 0 ≠ 0x0D
  · rw [if_pos h1]
  · rw [if_neg h1]
    have h3 : 3 ≤ length := by
      rcases Nat.lt_or_ge length 3 with hl | hl
      · exact absurd (Or.inl hl) h1
      · exact hl
    have ht : message.getD (length - 1) 0 = 0x0D := by
      by_contra hne
      exact h1 (Or.inr hne)
    have hc : ¬ interiorSum message length % 256 = (message.getD (length - 2) 0).val :=
      fun hc => h ⟨h3, ht, hc⟩
    dsimp only
    rw [if_pos (by rw [FortinProcessor.checksumLoop_eq]; exact hc)]

/-! ## One call of `add` -/

theorem FortinProcessor.add_of_dispatches {p : FortinProcessor} {b : Byte}
    (h : p.dispatches b) :
    p.add b = ({ m_buffer := (FortinProcessor.guardedAppend p.m_buffer b).reset },
      [(FortinProcessor.copyMessage (FortinProcessor.guardedAppend p.m_buffer b),
        (FortinProcessor.guardedAppend p.m_buffer b).length)]) := by
  obtain ⟨h0, h7, hl, ha⟩ := h
  unfold FortinProcessor.add
  rw [if_neg h0]
  dsimp only
  rw [if_pos h7, if_neg (fun hne => hne hl),
    FortinProcessor.handlePotentiallyValid_of_accepts _ ha]

theorem FortinProcessor.add_of_not_dispatches {p : FortinProcessor} {b : Byte}
    (h : ¬ p.dispatches b) :
    (p.add b).2 = [] ∧
    (p.add b).1 = if p.m_buffer.length = 0 ∧ b ≠ 0x0C then p
      else { m_buffer := FortinProcessor.guardedAppend p.m_buffer b } := by
  unfold FortinProcessor.add
  by_cases h0 : p.m_buffer.length = 0 ∧ b ≠ 0x0C
  · rw [if_pos h0, if_pos h0]; exact ⟨rfl, rfl⟩
  · rw [if_neg h0, if_neg h0]
    dsimp only
    by_cases h7 : 7 ≤ (FortinProcessor.guardedAppend p.m_buffer b).length
    · rw [if_pos h7]
      by_cases hl : (FortinProcessor.guardedAppend p.m_buffer b).length
          = ((FortinProcessor.guardedAppend p.m_buffer b).getFromBuffer 4).val + 7
      · rw [if_neg (fun hne => hne hl),
          FortinProcessor.handlePotentiallyValid_of_not_accepts _
            (fun ha => h ⟨h0, h7, hl, ha⟩)]
        exact ⟨rfl, rfl⟩
      · rw [if_pos hl]; exact ⟨rfl, rfl⟩
    · rw [if_neg h7]; exact ⟨rfl, rfl⟩

theorem FortinProcessor.dispatches_of_mem {p : FortinProcessor} {b : Byte} {c : HandlerCall}
    (h : c ∈ (p.add b).2) : p.dispatches b := by
  by_contra hn
  rw [(FortinProcessor.add_of_not_dispatches hn).1] at h
  exact List.not_mem_nil _ h

theorem FortinProcessor.eq_of_mem {p : FortinProcessor} {b : Byte} {c : HandlerCall}
    (h : c ∈ (p.add b).2) :
    c = (FortinProcessor.copyMessage (FortinProcessor.guardedAppend p.m_buffer b),
        (FortinProcessor.guardedAppend p.m_buffer b).length) := by
  have hd := FortinProcessor.dispatches_of_mem h
  rw [FortinProcessor.add_of_dispatches hd] at h
  simpa using h

theorem interiorSum_copyMessage (r : RingBuffer) :
    interiorSum (FortinProcessor.copyMessage r) r.length
      = ((List.range' 1 (r.length - 3)).map (fun i => (r.getFromBuffer i).val)).sum := by
  unfold interiorSum
  congr 1
  apply List.map_congr_left
  intro i hi
  have hi' := List.mem_range'_1.mp hi
  rw [FortinProcessor.copyMessage_getD r (by omega)]

theorem FortinProcessor.accepts_copyMessage_iff {r : RingBuffer} (h7 : 7 ≤ r.length) :
    FortinProcessor.accepts (FortinProcessor.copyMessage r) r.length ↔
      (r.getFromBuffer (r.length - 1) = 0x0D ∧
       ((List.range' 1 (r.length - 3)).map (fun i => (r.getFromBuffer i).val)).sum % 256
          = (r.getFromBuffer (r.length - 2)).val) := by
  unfold FortinProcessor.accepts
  rw [interiorSum_copyMessage, FortinProcessor.copyMessage_getD r (by omega : r.length - 1 < r.length),
    FortinProcessor.copyMessage_getD r (by omega : r.length - 2 < r.length)]
  constructor
  · rintro ⟨_, h1, h2⟩; exact ⟨h1, h2⟩
  · rintro ⟨h1, h2⟩; exact ⟨by omega, h1, h2⟩

/-! ## Properties of every dispatched frame -/

/-- C2, checksum invariant: in every state reachable from a fresh reassembler
of capacity `C >= 1`, whenever `add b` invokes the handler with
`(message, length)`, the sum of `message[1] .. message[length-3]` taken mod 256
equals `message[length-2]`; so does the same sum accumulated byte by byte in an
8-bit variable, as the source computes it. -/
theorem checksum_invariant (C : Nat) (_hC : 1 ≤ C) (ops : List Op) (b : Byte)
    (message : List Byte) (length : Nat)
    (h : (message, length) ∈ ((FortinProcessor.after C ops).add b).2) :
    interiorSum message length % 256 = (message.getD (length - 2) 0).val ∧
    FortinProcessor.checksumLoop message length = (message.getD (length - 2) 0).val := by
  have he := FortinProcessor.eq_of_mem h
  obtain ⟨_, _, _, ha⟩ := FortinProcessor.dispatches_of_mem h
  rw [Prod.mk.injEq] at he
  rw [FortinProcessor.checksumLoop_eq, he.1, he.2]
  exact ⟨ha.2.2, ha.2.2⟩

theorem checksum_invariant_witness :
    1 ≤ 8 ∧ (exampleFrame, 7) ∈ ((FortinProcessor.after 8 exampleOps).add 0x0D).2 ∧
      (interiorSum exampleFrame 7 % 256 = (exampleFrame.getD (7 - 2) 0).val ∧
        FortinProcessor.checksumLoop exampleFrame 7 = (exampleFrame.getD (7 - 2) 0).val) :=
  ⟨by decide, by decide,
    checksum_invariant 8 (by decide) exampleOps 0x0D exampleFrame 7 (by decide)⟩

/-- C3, length invariant: in every state reachable from a fresh reassembler of
capacity `C >= 1`, whenever `add b` invokes the handler with
`(message, length)`, `length = message[4] + 7`, hence `7 <= length <= 262`,
and `message` has exactly `length` bytes. -/
theorem length_invariant (C : Nat) (_hC : 1 ≤ C) (ops : List Op) (b : Byte)
    (message : List Byte) (length : Nat)
    (h : (message, length) ∈ ((FortinProcessor.after C ops).add b).2) :
    length = (message.getD 4 0).val + 7 ∧ 7 ≤ length ∧ length ≤ 262 ∧
      message.length = length := by
  have he := FortinProcessor.eq_of_mem h
  obtain ⟨_, h7, hl, _⟩ := FortinProcessor.dispatches_of_mem h
  rw [Prod.mk.injEq] at he
  rw [he.1, he.2, FortinProcessor.copyMessage_getD _ (by omega), FortinProcessor.copyMessage_length]
  have hb := ((FortinProcessor.guardedAppend (FortinProcessor.after C ops).m_buffer b).getFromBuffer 4).isLt
  exact ⟨hl, h7, by omega, rfl⟩

theorem length_invariant_witness :
    1 ≤ 8 ∧ (exampleFrame, 7) ∈ ((FortinProcessor.after 8 exampleOps).add 0x0D).2 ∧
      (7 = (exampleFrame.getD 4 0).val + 7 ∧ 7 ≤ 7 ∧ 7 ≤ 262 ∧ exampleFrame.length = 7) :=
  ⟨by decide, by decide,
    length_invariant 8 (by decide) exampleOps 0x0D exampleFrame 7 (by decide)⟩

/-- C4, terminator invariant: in every state reachable from a fresh
reassembler of capacity `C >= 1`, whenever `add b` invokes the handler with
`(message, length)`, `message[length-1] = 0x0D`. -/
theorem terminator_invariant (C : Nat) (_hC : 1 ≤ C) (ops : List Op) (b : Byte)
    (message : List Byte) (length : Nat)
    (h : (message, length) ∈ ((FortinProcessor.after C ops).add b).2) :
    message.getD (length - 1) 0 = 0x0D := by
  have he := FortinProcessor.eq_of_mem h
  obtain ⟨_, _, _, ha⟩ := FortinProcessor.dispatches_of_mem h
  rw [Prod.mk.injEq] at he
  rw [he.1, he.2]
  exact ha.2.1

theorem terminator_invariant_witness :
    1 ≤ 8 ∧ (exampleFrame, 7) ∈ ((FortinProcessor.after 8 exampleOps).add 0x0D).2 ∧
      exampleFrame.getD (7 - 1) 0 = 0x0D :=
  ⟨by decide, by decide,
    terminator_invariant 8 (by decide) exampleOps 0x0D exampleFrame 7 (by decide)⟩

/-! ## Idle noise -/

theorem FortinProcessor.add_idle (p : FortinProcessor) (h0 : p.m_buffer.length = 0)
    {b : Byte} (hb : b ≠ 0x0C) : p.add b = (p, []) := by
  unfold FortinProcessor.add
  rw [if_pos ⟨h0, hb⟩]

theorem FortinProcessor.feed_idle (p : FortinProcessor) (h0 : p.m_buffer.length = 0)
    (bs : List Byte) (hbs : ∀ b ∈ bs, b ≠ 0x0C) :
    p.feed bs = (p, List.replicate bs.length []) := by
  induction bs with
  | nil => rfl
  | cons b bs ih =>
    have hb : b ≠ 0x0C := hbs b (List.mem_cons_self _ _)
    have ih' := ih (fun x hx => hbs x (List.mem_cons_of_mem _ hx))
    simp only [FortinProcessor.feed] at ih'
    simp only [FortinProcessor.feed, List.map_cons, FortinProcessor.run, FortinProcessor.step,
      FortinProcessor.add_idle p h0 hb, ih', List.length_cons, List.replicate_succ]

/-- C6, idle-noise invariant: from a reassembler whose buffer is empty, feeding
any bytes none of which is `0x0C` never invokes the handler and leaves the
length at 0 after each byte (in fact the whole state is unchanged); a single
`add b` with empty buffer and `b != 0x0C` returns the state unchanged (start,
length and storage) with no handler call. -/
theorem idle_noise_invariant (p : FortinProcessor) (h0 : p.m_buffer.length = 0)
    (bs : List Byte) (hbs : ∀ b ∈ bs, b ≠ 0x0C) :
    (∀ k, (p.feed (bs.take k)).1.m_buffer.length = 0 ∧ (p.feed (bs.take k)).1 = p ∧
        ∀ calls ∈ (p.feed (bs.take k)).2, calls = []) ∧
    (∀ b : Byte, b ≠ 0x0C → p.add b = (p, [])) := by
  refine ⟨fun k => ?_, fun b hb => FortinProcessor.add_idle p h0 hb⟩
  rw [FortinProcessor.feed_idle p h0 (bs.take k) (fun b hb => hbs b (List.mem_of_mem_take hb))]
  exact ⟨h0, rfl, fun calls hc => List.eq_of_mem_replicate hc⟩

theorem idle_noise_invariant_witness :
    (FortinProcessor.fresh 8).m_buffer.length = 0 ∧
    (∀ b ∈ ([0xAA, 0xBB] : List Byte), b ≠ 0x0C) ∧
    ((∀ k, ((FortinProcessor.fresh 8).feed (([0xAA, 0xBB] : List Byte).take k)).1.m_buffer.length = 0 ∧
        ((FortinProcessor.fresh 8).feed (([0xAA, 0xBB] : List Byte).take k)).1 = FortinProcessor.fresh 8 ∧
        ∀ calls ∈ ((FortinProcessor.fresh 8).feed (([0xAA, 0xBB] : List Byte).take k)).2, calls = []) ∧
      (∀ b : Byte, b ≠ 0x0C → (FortinProcessor.fresh 8).add b = (FortinProcessor.fresh 8, []))) :=
  ⟨by decide, by decide,
    idle_noise_invariant (FortinProcessor.fresh 8) (by decide) [0xAA, 0xBB] (by decide)⟩

/-! ## Exactly-once dispatch -/

theorem FortinProcessor.dispatches_iff (p : FortinProcessor) (b : Byte) :
    p.dispatches b ↔ (¬ (p.m_buffer.length = 0 ∧ b ≠ 0x0C) ∧
      (FortinProcessor.guardedAppend p.m_buffer b).holdsValidFrame) := by
  unfold FortinProcessor.dispatches RingBuffer.holdsValidFrame
  constructor
  · rintro ⟨h0, h7, hl, ha⟩
    exact ⟨h0, h7, hl, (FortinProcessor.accepts_copyMessage_iff h7).mp ha⟩
  · rintro ⟨h0, h7, hl, ha⟩
    exact ⟨h0, h7, hl, (FortinProcessor.accepts_copyMessage_iff h7).mpr ha⟩

/-- C7, exactly-once dispatch: in every state reachable from a fresh
reassembler of capacity `C >= 1`, one call `add b` invokes the handler exactly
once if `b` is appended and the buffer then has `length >= 7`,
`length = get(4) + 7`, last byte `0x0D` and the 8-bit sum of bytes
`1 .. length-3` equal to byte `length-2`; it invokes it zero times otherwise;
and whenever the handler is invoked the buffer length is 0 when `add` returns. -/
theorem exactly_once_dispatch (C : Nat) (_hC : 1 ≤ C) (ops : List Op) (b : Byte) :
    (((FortinProcessor.after C ops).add b).2.length =
      if ¬ ((FortinProcessor.after C ops).m_buffer.length = 0 ∧ b ≠ 0x0C) ∧
          (FortinProcessor.guardedAppend (FortinProcessor.after C ops).m_buffer b).holdsValidFrame
      then 1 else 0) ∧
    (((FortinProcessor.after C ops).add b).2 ≠ [] →
      ((FortinProcessor.after C ops).add b).1.m_buffer.length = 0) := by
  by_cases hd : (FortinProcessor.after C ops).dispatches b
  · rw [if_pos ((FortinProcessor.dispatches_iff _ _).mp hd), FortinProcessor.add_of_dispatches hd]
    exact ⟨rfl, fun _ => rfl⟩
  · rw [if_neg (fun h => hd ((FortinProcessor.dispatches_iff _ _).mpr h)),
      (FortinProcessor.add_of_not_dispatches hd).1]
    exact ⟨rfl, fun h => absurd rfl h⟩

theorem exactly_once_dispatch_witness :
    1 ≤ 8 ∧
    ((((FortinProcessor.after 8 exampleOps).add 0x0D).2.length =
      if ¬ ((FortinProcessor.after 8 exampleOps).m_buffer.length = 0 ∧ (0x0D : Byte) ≠ 0x0C) ∧
          (FortinProcessor.guardedAppend (FortinProcessor.after 8 exampleOps).m_buffer 0x0D).holdsValidFrame
      then 1 else 0) ∧
    (((FortinProcessor.after 8 exampleOps).add 0x0D).2 ≠ [] →
      ((FortinProcessor.after 8 exampleOps).add 0x0D).1.m_buffer.length = 0)) :=
  ⟨by decide, exactly_once_dispatch 8 (by decide) exampleOps 0x0D⟩

/-! ## Appending a run of bytes -/

theorem RingBuffer.addAll_append (r : RingBuffer) (xs : List Byte) (b : Byte) :
    r.addAll (xs ++ [b]) = (r.addAll xs).addToBuffer b := by
  simp [RingBuffer.addAll, List.foldl_append]

theorem RingBuffer.addAll_facts (r : RingBuffer) (h : r.WF) (xs : List Byte) :
    (r.addAll xs).WF ∧ (r.addAll xs).m_buffer_length = r.m_buffer_length ∧
    (r.addAll xs).m_start_message = r.m_start_message ∧
    (r.addAll xs).length = r.length + xs.length := by
  induction xs using List.reverseRecOn with
  | nil => exact ⟨h, rfl, rfl, rfl⟩
  | append_singleton xs b ih =>
    obtain ⟨h1, h2, h3, h4⟩ := ih
    rw [RingBuffer.addAll_append]
    refine ⟨RingBuffer.addToBuffer_WF h1 b, h2, h3, ?_⟩
    simp only [RingBuffer.length] at h4 ⊢
    simp only [RingBuffer.addToBuffer, h4, List.length_append, List.length_singleton]
    omega

theorem RingBuffer.copyMessage_addAll (r : RingBuffer) (h : r.WF) (xs : List Byte)
    (hfit : r.length + xs.length ≤ r.m_buffer_length) :
    FortinProcessor.copyMessage (r.addAll xs) = FortinProcessor.copyMessage r ++ xs := by
  induction xs using List.reverseRecOn with
  | nil => simp [RingBuffer.addAll]
  | append_singleton xs b ih =>
    have hfit' : r.length + xs.length < r.m_buffer_length := by
      simp only [List.length_append, List.length_singleton] at hfit; omega
    obtain ⟨h1, h2, _, h4⟩ := RingBuffer.addAll_facts r h xs
    rw [RingBuffer.addAll_append,
      FortinProcessor.copyMessage_addToBuffer h1 (by rw [h2, h4]; exact hfit'),
      ih (by omega), List.append_assoc]

theorem FortinProcessor.copyMessage_of_length_zero {r : RingBuffer} (h : r.length = 0) :
    FortinProcessor.copyMessage r = [] := by
  simp [FortinProcessor.copyMessage, h]

theorem FortinProcessor.guardedAppend_of_le {r : RingBuffer} (h : r.length ≤ r.m_buffer_length)
    (b : Byte) : FortinProcessor.guardedAppend r b = r.addToBuffer b := by
  unfold FortinProcessor.guardedAppend
  have hne : ¬ ((r.maxLength : Int) = (r.length : Int) - 1) := by
    simp only [RingBuffer.maxLength]; omega
  simp only [if_neg hne]

theorem FortinProcessor.run_append (p : FortinProcessor) (xs ys : List Op) :
    p.run (xs ++ ys) = ((((p.run xs).1).run ys).1, (p.run xs).2 ++ (((p.run xs).1).run ys).2) := by
  induction xs generalizing p with
  | nil => simp [FortinProcessor.run]
  | cons o os ih => simp [FortinProcessor.run, ih]

theorem FortinProcessor.feed_snoc (p : FortinProcessor) (xs : List Byte) (b : Byte) :
    p.feed (xs ++ [b]) = (((p.feed xs).1.add b).1, (p.feed xs).2 ++ [((p.feed xs).1.add b).2]) := by
  simp [FortinProcessor.feed, FortinProcessor.run_append, FortinProcessor.run, FortinProcessor.step]

/-! ## Completeness of frame recognition -/

theorem take_succ_getD (f : List Byte) {k : Nat} (hk : k < f.length) :
    f.take (k + 1) = f.take k ++ [f.getD k 0] := by
  rw [List.take_succ, List.getD_eq_getElem?_getD, List.getElem?_eq_getElem hk]
  rfl

theorem getD_take_of_lt (f : List Byte) {i k : Nat} (h : i < k) :
    (f.take k).getD i 0 = f.getD i 0 := by
  rw [List.getD_eq_getElem?_getD, List.getD_eq_getElem?_getD, List.getElem?_take_of_lt h]

theorem FortinProcessor.feed_take_accumulates (p : FortinProcessor) (hwf : p.m_buffer.WF)
    (hempty : p.m_buffer.length = 0) (f : List Byte)
    (hlen : f.length = (f.getD 4 0).val + 7) (hC : f.length ≤ p.m_buffer.m_buffer_length)
    (hsync : f.getD 0 0 = 0x0C) (k : Nat) (hk : k < f.length) :
    p.feed (f.take k) = ({ m_buffer := p.m_buffer.addAll (f.take k) }, List.replicate k []) := by
  induction k with
  | zero => rfl
  | succ k ih =>
    have ih' := ih (by omega)
    have hk' : k < f.length := by omega
    obtain ⟨h1, h2, _, h4⟩ := RingBuffer.addAll_facts p.m_buffer hwf (f.take k)
    have htl : (f.take k).length = k := by rw [List.length_take]; omega
    rw [hempty, htl, Nat.zero_add] at h4
    have hga : FortinProcessor.guardedAppend (p.m_buffer.addAll (f.take k)) (f.getD k 0)
        = p.m_buffer.addAll (f.take (k + 1)) := by
      rw [FortinProcessor.guardedAppend_of_le (by rw [h2, h4]; omega), take_succ_getD f hk',
        RingBuffer.addAll_append]
    have hcm : FortinProcessor.copyMessage (p.m_buffer.addAll (f.take (k + 1))) = f.take (k + 1) := by
      rw [RingBuffer.copyMessage_addAll _ hwf _ (by rw [hempty, List.length_take]; omega),
        FortinProcessor.copyMessage_of_length_zero hempty, List.nil_append]
    have hl1 : (p.m_buffer.addAll (f.take (k + 1))).length = k + 1 := by
      have := (RingBuffer.addAll_facts p.m_buffer hwf (f.take (k + 1))).2.2.2
      rw [this, hempty, List.length_take]; omega
    have hnd : ¬ FortinProcessor.dispatches { m_buffer := p.m_buffer.addAll (f.take k) } (f.getD k 0) := by
      rintro ⟨_, h7, hl, _⟩
      simp only [hga, hl1] at h7 hl
      rw [← FortinProcessor.copyMessage_getD _ (by rw [hl1]; omega), hcm,
        getD_take_of_lt f (by omega)] at hl
      omega
    have hni : ¬ ((p.m_buffer.addAll (f.take k)).length = 0 ∧ f.getD k 0 ≠ 0x0C) := by
      rintro ⟨hz, hne⟩
      rw [h4] at hz
      subst hz
      exact hne hsync
    obtain ⟨hc, hs⟩ := FortinProcessor.add_of_not_dispatches hnd
    rw [if_neg hni] at hs
    rw [take_succ_getD f hk', FortinProcessor.feed_snoc, ih']
    simp only [hc, hs, hga, take_succ_getD f hk']
    rw [List.replicate_succ']

/-- C1, completeness of frame recognition: for every capacity `C` and every
byte sequence `f` of length `L = f[4] + 7 <= C` with `f[0] = 0x0C`,
`f[L-1] = 0x0D` and `f[L-2] = (f[1] + ... + f[L-3]) mod 256`, feeding `f` byte
by byte through `add` to a reassembler of capacity `C` whose buffer is empty
invokes the handler for none of the first `L-1` bytes, exactly once during the
call for the last byte, with message `f` and length `L`, and leaves the buffer
length at 0. -/
theorem frame_recognition_complete (C : Nat) (p : FortinProcessor)
    (hcap : p.m_buffer.maxLength = C) (hwf : p.m_buffer.WF)
    (hempty : p.m_buffer.length = 0) (f : List Byte)
    (hlen : f.length = (f.getD 4 0).val + 7) (hC : f.length ≤ C)
    (hsync : f.getD 0 0 = 0x0C) (hterm : f.getD (f.length - 1) 0 = 0x0D)
    (hsum : (f.getD (f.length - 2) 0).val = interiorSum f f.length % 256) :
    (p.feed f).2 = List.replicate (f.length - 1) [] ++ [[(f, f.length)]] ∧
    (p.feed f).1.m_buffer.length = 0 := by
  have hC' : f.length ≤ p.m_buffer.m_buffer_length := by
    rw [← hcap] at hC; exact hC
  have hL : f.length - 1 < f.length := by omega
  have hsplit : f = f.take (f.length - 1) ++ [f.getD (f.length - 1) 0] := by
    have := take_succ_getD f hL
    rwa [Nat.sub_add_cancel (by omega), List.take_length] at this
  have hacc := FortinProcessor.feed_take_accumulates p hwf hempty f hlen hC' hsync _ hL
  obtain ⟨h1, h2, _, h4⟩ := RingBuffer.addAll_facts p.m_buffer hwf (f.take (f.length - 1))
  have htl : (f.take (f.length - 1)).length = f.length - 1 := by rw [List.length_take]; omega
  rw [hempty, htl, Nat.zero_add] at h4
  have hga : FortinProcessor.guardedAppend (p.m_buffer.addAll (f.take (f.length - 1)))
      (f.getD (f.length - 1) 0) = p.m_buffer.addAll f := by
    rw [FortinProcessor.guardedAppend_of_le (by rw [h2, h4]; omega), ← RingBuffer.addAll_append,
      ← hsplit]
  have hcm : FortinProcessor.copyMessage (p.m_buffer.addAll f) = f := by
    rw [RingBuffer.copyMessage_addAll _ hwf _ (by rw [hempty]; omega),
      FortinProcessor.copyMessage_of_length_zero hempty, List.nil_append]
  have hl1 : (p.m_buffer.addAll f).length = f.length := by
    rw [(RingBuffer.addAll_facts p.m_buffer hwf f).2.2.2, hempty, Nat.zero_add]
  have hd : FortinProcessor.dispatches { m_buffer := p.m_buffer.addAll (f.take (f.length - 1)) }
      (f.getD (f.length - 1) 0) := by
    refine ⟨?_, ?_, ?_, ?_⟩
    · rintro ⟨hz, _⟩
      rw [h4] at hz
      omega
    · simp only [hga, hl1]; omega
    · simp only [hga, hl1]
      rw [← FortinProcessor.copyMessage_getD _ (by rw [hl1]; omega), hcm]
      exact hlen
    · simp only [hga, hl1, hcm]
      exact ⟨by omega, hterm, hsum.symm⟩
  have hadd := FortinProcessor.add_of_dispatches hd
  simp only [hga, hl1, hcm] at hadd
  have hfeed : p.feed f = (((p.feed (f.take (f.length - 1))).1.add (f.getD (f.length - 1) 0)).1,
      (p.feed (f.take (f.length - 1))).2 ++
        [((p.feed (f.take (f.length - 1))).1.add (f.getD (f.length - 1) 0)).2]) := by
    rw [← FortinProcessor.feed_snoc, ← hsplit]
  rw [hfeed, hacc]
  dsimp only
  rw [hadd]
  exact ⟨rfl, rfl⟩

theorem frame_recognition_complete_witness :
    (FortinProcessor.after 8 [Op.add 0xAA, Op.add 0xBB]).m_buffer.maxLength = 8 ∧
    (FortinProcessor.after 8 [Op.add 0xAA, Op.add 0xBB]).m_buffer.WF ∧
    (FortinProcessor.after 8 [Op.add 0xAA, Op.add 0xBB]).m_buffer.length = 0 ∧
    exampleFrame.length = (exampleFrame.getD 4 0).val + 7 ∧ exampleFrame.length ≤ 8 ∧
    exampleFrame.getD 0 0 = 0x0C ∧ exampleFrame.getD (exampleFrame.length - 1) 0 = 0x0D ∧
    (exampleFrame.getD (exampleFrame.length - 2) 0).val
      = interiorSum exampleFrame exampleFrame.length % 256 ∧
    ((FortinProcessor.after 8 [Op.add 0xAA, Op.add 0xBB]).feed exampleFrame).2
      = List.replicate (exampleFrame.length - 1) [] ++ [[(exampleFrame, exampleFrame.length)]] ∧
    ((FortinProcessor.after 8 [Op.add 0xAA, Op.add 0xBB]).feed exampleFrame).1.m_buffer.length = 0 :=
  ⟨by decide, by decide, by decide, by decide, by decide, by decide, by decide, by decide,
    frame_recognition_complete 8 (FortinProcessor.after 8 [Op.add 0xAA, Op.add 0xBB])
      (by decide) (by decide) (by decide) exampleFrame (by decide) (by decide) (by decide)
      (by decide) (by decide)⟩

/-! ## Circular addressing -/

theorem RingBuffer.runOps_facts (r : RingBuffer) (h : r.WF) (ops : List (Option Byte)) :
    (r.runOps ops).WF ∧ (r.runOps ops).m_buffer_length = r.m_buffer_length := by
  induction ops generalizing r with
  | nil => exact ⟨h, rfl⟩
  | cons o os ih =>
    cases o with
    | none => exact ih r.reset (RingBuffer.reset_WF h)
    | some b => exact ih (r.addToBuffer b) (RingBuffer.addToBuffer_WF h b)

/-- C10, circular addressing round trip: for every capacity `C >= 1`, every
`RingBuffer` state produced from the constructor by any appends and resets,
and every byte sequence `xs` of length `n <= C`: after `reset()` followed by
`addToBuffer` of each byte of `xs` in order, `length() = n` and
`getFromBuffer(i)` is the `i`-th byte of `xs` for every `i < n`. -/
theorem circular_round_trip (C : Nat) (_hC : 1 ≤ C) (ops : List (Option Byte))
    (xs : List Byte) (hn : xs.length ≤ C) :
    (((RingBuffer.construct C).runOps ops).reset.addAll xs).length = xs.length ∧
    ∀ i, i < xs.length →
      (((RingBuffer.construct C).runOps ops).reset.addAll xs).getFromBuffer i = xs.getD i 0 := by
  obtain ⟨hwf, hcap⟩ := RingBuffer.runOps_facts _ (RingBuffer.construct_WF C) ops
  have hcap' : ((RingBuffer.construct C).runOps ops).reset.m_buffer_length = C := by
    simpa [RingBuffer.reset, RingBuffer.construct] using hcap
  have hwf' := RingBuffer.reset_WF hwf
  have h0 : ((RingBuffer.construct C).runOps ops).reset.length = 0 := rfl
  have hlen : (((RingBuffer.construct C).runOps ops).reset.addAll xs).length = xs.length := by
    rw [(RingBuffer.addAll_facts _ hwf' xs).2.2.2, h0, Nat.zero_add]
  refine ⟨hlen, fun i hi => ?_⟩
  rw [← FortinProcessor.copyMessage_getD _ (by rw [hlen]; exact hi),
    RingBuffer.copyMessage_addAll _ hwf' xs (by rw [h0, hcap']; omega),
    FortinProcessor.copyMessage_of_length_zero h0, List.nil_append]

theorem circular_round_trip_witness :
    1 ≤ 4 ∧ ([9, 8, 7, 6] : List Byte).length ≤ 4 ∧
    ((((RingBuffer.construct 4).runOps exampleRingOps).reset.addAll [9, 8, 7, 6]).length
        = ([9, 8, 7, 6] : List Byte).length ∧
      ∀ i, i < ([9, 8, 7, 6] : List Byte).length →
        (((RingBuffer.construct 4).runOps exampleRingOps).reset.addAll [9, 8, 7, 6]).getFromBuffer i
          = ([9, 8, 7, 6] : List Byte).getD i 0) :=
  ⟨by decide, by decide, circular_round_trip 4 (by decide) exampleRingOps [9, 8, 7, 6] (by decide)⟩

/-! ## Behaviour at the capacity limit -/

/-- C5, evaluation at the failing input: on a fresh reassembler of capacity 8,
after the nine bytes `overrunBytes` (no dispatch, length 9) the bytes of
`unsyncedFrame` are accepted one by one although the first is `0xAA`, and the
last of them makes `add` invoke the handler once with a message whose byte 0
is `0xAA`, not `0x0C`. -/
theorem sync_marker_not_enforced_after_overrun :
    ((FortinProcessor.fresh 8).feed overrunBytes).1.m_buffer.length = 9 ∧
    (∀ calls ∈ ((FortinProcessor.fresh 8).feed overrunBytes).2, calls = []) ∧
    ((FortinProcessor.fresh 8).feed (overrunBytes ++ unsyncedFrame)).2.getLast?
      = some [(unsyncedFrame, 7)] ∧
    unsyncedFrame.getD 0 0 = 0xAA ∧ unsyncedFrame.getD 0 0 ≠ 0x0C := by
  decide

/-- C8, evaluation at the failing input: on a reassembler of capacity 8 holding
the eight bytes `fullBufferBytes`, `add 0x0E` completes a candidate of length
`9 = get(4) + 7` with a wrong terminator; the handler is not invoked and the
length goes from 8 to 9 without a reset, yet the byte is written to physical
slot 0, so logical offset 0 no longer reads the stored `0x0C` but `0x0E`. -/
theorem rejected_candidate_overwrites_offset_zero :
    ((FortinProcessor.fresh 8).feed fullBufferBytes).1.m_buffer.length = 8 ∧
    FortinProcessor.copyMessage ((FortinProcessor.fresh 8).feed fullBufferBytes).1.m_buffer
      = fullBufferBytes ∧
    (FortinProcessor.guardedAppend ((FortinProcessor.fresh 8).feed fullBufferBytes).1.m_buffer 0x0E).length
      = ((FortinProcessor.guardedAppend
          ((FortinProcessor.fresh 8).feed fullBufferBytes).1.m_buffer 0x0E).getFromBuffer 4).val + 7 ∧
    (FortinProcessor.guardedAppend
      ((FortinProcessor.fresh 8).feed fullBufferBytes).1.m_buffer 0x0E).getFromBuffer 8 ≠ 0x0D ∧
    (((FortinProcessor.fresh 8).feed fullBufferBytes).1.add 0x0E).2 = [] ∧
    (((FortinProcessor.fresh 8).feed fullBufferBytes).1.add 0x0E).1.m_buffer.length = 8 + 1 ∧
    ((FortinProcessor.fresh 8).feed fullBufferBytes).1.m_buffer.getFromBuffer 0 = 0x0C ∧
    (((FortinProcessor.fresh 8).feed fullBufferBytes).1.add 0x0E).1.m_buffer.getFromBuffer 0 = 0x0E := by
  decide

/-- C9, evaluation at the failing input: on a fresh reassembler of capacity 8,
after eight bytes the length equals the capacity, and the ninth `add` still
executes `addToBuffer` (no reset): the length becomes 9, above the capacity. -/
theorem length_exceeds_capacity :
    ((FortinProcessor.fresh 8).feed (overrunBytes.take 8)).1.m_buffer.length = 8 ∧
    ((FortinProcessor.fresh 8).feed (overrunBytes.take 8)).1.m_buffer.maxLength = 8 ∧
    (((FortinProcessor.fresh 8).feed (overrunBytes.take 8)).1.add 0xFF).1.m_buffer
      = (((FortinProcessor.fresh 8).feed (overrunBytes.take 8)).1.m_buffer.addToBuffer 0xFF) ∧
    ((FortinProcessor.fresh 8).feed overrunBytes).1.m_buffer.length = 9 ∧
    ¬ ((FortinProcessor.fresh 8).feed overrunBytes).1.m_buffer.length
        ≤ ((FortinProcessor.fresh 8).feed overrunBytes).1.m_buffer.maxLength := by
  decide

/-! ## Reachable states -/

theorem FortinProcessor.Inv_fresh (C : Nat) : FortinProcessor.Inv C (FortinProcessor.fresh C) :=
  ⟨RingBuffer.construct_WF C, rfl, rfl, Nat.zero_le _⟩

theorem FortinProcessor.Inv_reset {C : Nat} {p : FortinProcessor} (h : FortinProcessor.Inv C p) :
    FortinProcessor.Inv C p.reset :=
  ⟨RingBuffer.reset_WF h.1, h.2.1, rfl, Nat.zero_le _⟩

theorem FortinProcessor.Inv_guardedAppend {C : Nat} {p : FortinProcessor}
    (h : FortinProcessor.Inv C p) (b : Byte) :
    FortinProcessor.Inv C { m_buffer := FortinProcessor.guardedAppend p.m_buffer b } := by
  obtain ⟨h1, h2, h3, h4⟩ := h
  unfold FortinProcessor.guardedAppend
  by_cases hg : (p.m_buffer.maxLength : Int) = (p.m_buffer.length : Int) - 1
  · simp only [if_pos hg]
    exact ⟨RingBuffer.addToBuffer_WF (RingBuffer.reset_WF h1) b, h2, rfl, by
      simp [RingBuffer.length, RingBuffer.addToBuffer, RingBuffer.reset]⟩
  · simp only [if_neg hg]
    refine ⟨RingBuffer.addToBuffer_WF h1 b, h2, h3, ?_⟩
    simp only [RingBuffer.maxLength, RingBuffer.length] at hg h4
    simp only [RingBuffer.length, RingBuffer.addToBuffer]
    omega

theorem FortinProcessor.Inv_add {C : Nat} {p : FortinProcessor} (h : FortinProcessor.Inv C p)
    (b : Byte) : FortinProcessor.Inv C (p.add b).1 := by
  by_cases hd : p.dispatches b
  · rw [FortinProcessor.add_of_dispatches hd]
    exact FortinProcessor.Inv_reset (p := { m_buffer := FortinProcessor.guardedAppend p.m_buffer b })
      (FortinProcessor.Inv_guardedAppend h b)
  · rw [(FortinProcessor.add_of_not_dispatches hd).2]
    split
    · exact h
    · exact FortinProcessor.Inv_guardedAppend h b

theorem FortinProcessor.Inv_run {C : Nat} (ops : List Op) {p : FortinProcessor}
    (h : FortinProcessor.Inv C p) : FortinProcessor.Inv C (p.run ops).1 := by
  induction ops generalizing p with
  | nil => exact h
  | cons o os ih =>
    cases o with
    | add b => exact ih (FortinProcessor.Inv_add h b)
    | reset => exact ih (FortinProcessor.Inv_reset h)

theorem FortinProcessor.Inv_after (C : Nat) (ops : List Op) :
    FortinProcessor.Inv C (FortinProcessor.after C ops) :=
  FortinProcessor.Inv_run ops (FortinProcessor.Inv_fresh C)

/-- Within the capacity the rejection path keeps the buffer: in a reachable
state whose length is below the capacity, if the buffer after appending `b`
has `length = get(4) + 7` but fails the terminator or checksum test, `add b`
makes no handler call, the length grows by one, and the logical contents are
the previous contents followed by `b`. -/
theorem rejected_candidate_kept_below_capacity (C : Nat) (ops : List Op) (b : Byte)
    (hlt : (FortinProcessor.after C ops).m_buffer.length < C)
    (hcand : (FortinProcessor.guardedAppend (FortinProcessor.after C ops).m_buffer b).length
      = ((FortinProcessor.guardedAppend (FortinProcessor.after C ops).m_buffer b).getFromBuffer 4).val + 7)
    (hbad : ¬ (FortinProcessor.guardedAppend (FortinProcessor.after C ops).m_buffer b).holdsValidFrame) :
    ((FortinProcessor.after C ops).add b).2 = [] ∧
    ((FortinProcessor.after C ops).add b).1.m_buffer.length
      = (FortinProcessor.after C ops).m_buffer.length + 1 ∧
    FortinProcessor.copyMessage ((FortinProcessor.after C ops).add b).1.m_buffer
      = FortinProcessor.copyMessage (FortinProcessor.after C ops).m_buffer ++ [b] := by
  obtain ⟨h1, h2, _, _⟩ := FortinProcessor.Inv_after C ops
  have hga := FortinProcessor.guardedAppend_of_le (r := (FortinProcessor.after C ops).m_buffer)
    (by rw [h2]; omega) b
  have hnd : ¬ (FortinProcessor.after C ops).dispatches b :=
    fun hd => hbad ((FortinProcessor.dispatches_iff _ _).mp hd).2
  have hni : ¬ ((FortinProcessor.after C ops).m_buffer.length = 0 ∧ b ≠ 0x0C) := by
    rintro ⟨hz, _⟩
    rw [hga] at hcand
    simp only [RingBuffer.length, RingBuffer.addToBuffer] at hcand hz
    omega
  obtain ⟨hc, hs⟩ := FortinProcessor.add_of_not_dispatches hnd
  rw [if_neg hni, hga] at hs
  rw [hs]
  exact ⟨hc, rfl, FortinProcessor.copyMessage_addToBuffer h1 (by rw [h2]; exact hlt) b⟩

/-! ## Stale storage is never observed -/

theorem RingBuffer.getFromBuffer_addToBuffer {r : RingBuffer} (h : r.WF)
    (hC : 1 ≤ r.m_buffer_length) (b : Byte) (i : Nat) :
    (r.addToBuffer b).getFromBuffer i =
      if (r.m_start_message + r.m_message_length) % r.m_buffer_length
          = (r.m_start_message + i) % r.m_buffer_length then b
      else r.getFromBuffer i := by
  have hlt : (r.m_start_message + r.m_message_length) % r.m_buffer_length < r.m_buffer.length := by
    rw [h]; exact Nat.mod_lt _ (by omega)
  by_cases he : (r.m_start_message + r.m_message_length) % r.m_buffer_length
      = (r.m_start_message + i) % r.m_buffer_length
  · rw [if_pos he]
    simp [RingBuffer.getFromBuffer, RingBuffer.addToBuffer, List.getD_eq_getElem?_getD,
      List.getElem?_set, ← he, hlt]
  · rw [if_neg he]
    simp [RingBuffer.getFromBuffer, RingBuffer.addToBuffer, List.getD_eq_getElem?_getD,
      List.getElem?_set, he]

theorem RingBuffer.SameView.addToBuffer {r r' : RingBuffer} (h : r.SameView r') (b : Byte) :
    (r.addToBuffer b).SameView (r'.addToBuffer b) := by
  obtain ⟨h1, h2, h3, h4, h5, h6, h7⟩ := h
  refine ⟨RingBuffer.addToBuffer_WF h1 b, RingBuffer.addToBuffer_WF h2 b, h3, h4, h5, ?_, ?_⟩
  · simp only [RingBuffer.length] at h6
    simp only [RingBuffer.length, RingBuffer.addToBuffer, h6]
  · intro i hi
    have hi' : i < r.m_message_length + 1 := hi
    rw [RingBuffer.getFromBuffer_addToBuffer h1 h3, RingBuffer.getFromBuffer_addToBuffer h2 (h4 ▸ h3)]
    simp only [RingBuffer.length] at h6 h7
    rw [← h4, ← h5, ← h6]
    split
    · rfl
    · rename_i hne
      have hlt : i < r.m_message_length := by
        rcases Nat.lt_or_ge i r.m_message_length with hl | hl
        · exact hl
        · have : i = r.m_message_length := by omega
          subst this
          exact absurd rfl hne
      exact h7 i hlt

theorem RingBuffer.SameView.reset {r r' : RingBuffer} (h : r.SameView r') :
    r.reset.SameView r'.reset := by
  obtain ⟨h1, h2, h3, h4, _, _, _⟩ := h
  exact ⟨RingBuffer.reset_WF h1, RingBuffer.reset_WF h2, h3, h4, rfl, rfl,
    fun i hi => absurd hi (Nat.not_lt_zero i)⟩

theorem RingBuffer.SameView.guardedAppend {r r' : RingBuffer} (h : r.SameView r') (b : Byte) :
    (FortinProcessor.guardedAppend r b).SameView (FortinProcessor.guardedAppend r' b) := by
  have h4 := h.2.2.2.1
  have h6 := h.2.2.2.2.2.1
  unfold FortinProcessor.guardedAppend
  simp only [RingBuffer.maxLength, ← h4, ← h6]
  split
  · exact (RingBuffer.SameView.reset h).addToBuffer b
  · exact h.addToBuffer b

theorem RingBuffer.SameView.copyMessage {r r' : RingBuffer} (h : r.SameView r') :
    FortinProcessor.copyMessage r = FortinProcessor.copyMessage r' := by
  obtain ⟨_, _, _, _, _, h6, h7⟩ := h
  unfold FortinProcessor.copyMessage
  rw [← h6]
  exact List.map_congr_left (fun i hi => h7 i (List.mem_range.mp hi))

theorem FortinProcessor.dispatches_congr {p q : FortinProcessor}
    (h : p.m_buffer.SameView q.m_buffer) (b : Byte) : p.dispatches b ↔ q.dispatches b := by
  have hg := RingBuffer.SameView.guardedAppend h b
  have hlen := h.2.2.2.2.2.1
  have hglen := hg.2.2.2.2.2.1
  have hcm := RingBuffer.SameView.copyMessage hg
  unfold FortinProcessor.dispatches
  rw [← hlen, ← hglen, ← hcm]
  constructor
  · rintro ⟨h0, h7, hl, ha⟩
    exact ⟨h0, h7, by rw [← hg.2.2.2.2.2.2 4 (by omega)]; exact hl, ha⟩
  · rintro ⟨h0, h7, hl, ha⟩
    exact ⟨h0, h7, by rw [hg.2.2.2.2.2.2 4 (by omega)]; exact hl, ha⟩

theorem FortinProcessor.add_congr {p q : FortinProcessor}
    (h : p.m_buffer.SameView q.m_buffer) (b : Byte) :
    (p.add b).2 = (q.add b).2 ∧ (p.add b).1.m_buffer.SameView (q.add b).1.m_buffer := by
  have hg := RingBuffer.SameView.guardedAppend h b
  by_cases hd : p.dispatches b
  · have hd' := (FortinProcessor.dispatches_congr h b).mp hd
    rw [FortinProcessor.add_of_dispatches hd, FortinProcessor.add_of_dispatches hd']
    refine ⟨?_, RingBuffer.SameView.reset hg⟩
    rw [RingBuffer.SameView.copyMessage hg, hg.2.2.2.2.2.1]
  · have hd' : ¬ q.dispatches b := fun hq => hd ((FortinProcessor.dispatches_congr h b).mpr hq)
    obtain ⟨hc, hs⟩ := FortinProcessor.add_of_not_dispatches hd
    obtain ⟨hc', hs'⟩ := FortinProcessor.add_of_not_dispatches hd'
    rw [hc, hc', hs, hs', ← h.2.2.2.2.2.1]
    refine ⟨rfl, ?_⟩
    split
    · exact h
    · exact hg

theorem FortinProcessor.feed_congr (w : List Byte) {p q : FortinProcessor}
    (h : p.m_buffer.SameView q.m_buffer) :
    (p.feed w).2 = (q.feed w).2 ∧ (p.feed w).1.m_buffer.SameView (q.feed w).1.m_buffer := by
  induction w generalizing p q with
  | nil => exact ⟨rfl, h⟩
  | cons b w ih =>
    obtain ⟨hc, hs⟩ := FortinProcessor.add_congr h b
    obtain ⟨hc', hs'⟩ := ih hs
    simp only [FortinProcessor.feed] at hc' hs'
    simp only [FortinProcessor.feed, List.map_cons, FortinProcessor.run, FortinProcessor.step]
    exact ⟨by rw [hc, hc'], hs'⟩

theorem RingBuffer.SameView_reset_fresh (C : Nat) (hC : 1 ≤ C) (ops : List Op) :
    (FortinProcessor.after C ops).reset.m_buffer.SameView (FortinProcessor.fresh C).m_buffer := by
  obtain ⟨h1, h2, _, _⟩ := FortinProcessor.Inv_after C ops
  exact ⟨RingBuffer.reset_WF h1, RingBuffer.construct_WF C, by rw [← h2] at hC; exact hC,
    h2, rfl, rfl, fun i hi => absurd hi (Nat.not_lt_zero i)⟩

/-- C11, reset makes stale storage inert: for every capacity `C >= 1`, every
reachable state and every byte sequence `w`, after `reset()` the length and
the start offset are 0, and feeding `w` to the reset reassembler gives, call
by call, the same handler invocations (same messages and lengths at the same
input positions) as feeding `w` to a fresh reassembler of capacity `C`, with
the same buffer length and the same logical contents after every byte. -/
theorem reset_makes_stale_storage_inert (C : Nat) (hC : 1 ≤ C) (ops : List Op) (w : List Byte) :
    (FortinProcessor.after C ops).reset.m_buffer.length = 0 ∧
    (FortinProcessor.after C ops).reset.m_buffer.m_start_message = 0 ∧
    ((FortinProcessor.after C ops).reset.feed w).2 = ((FortinProcessor.fresh C).feed w).2 ∧
    ∀ k, ((FortinProcessor.after C ops).reset.feed (w.take k)).2
          = ((FortinProcessor.fresh C).feed (w.take k)).2 ∧
        ((FortinProcessor.after C ops).reset.feed (w.take k)).1.m_buffer.length
          = ((FortinProcessor.fresh C).feed (w.take k)).1.m_buffer.length ∧
        FortinProcessor.copyMessage ((FortinProcessor.after C ops).reset.feed (w.take k)).1.m_buffer
          = FortinProcessor.copyMessage ((FortinProcessor.fresh C).feed (w.take k)).1.m_buffer := by
  have hs := RingBuffer.SameView_reset_fresh C hC ops
  refine ⟨rfl, rfl, (FortinProcessor.feed_congr w hs).1, fun k => ?_⟩
  obtain ⟨hc, hv⟩ := FortinProcessor.feed_congr (w.take k) hs
  exact ⟨hc, hv.2.2.2.2.2.1, RingBuffer.SameView.copyMessage hv⟩

theorem reset_makes_stale_storage_inert_witness :
    1 ≤ 8 ∧
    ((FortinProcessor.after 8 fourByteOps).reset.m_buffer.length = 0 ∧
    (FortinProcessor.after 8 fourByteOps).reset.m_buffer.m_start_message = 0 ∧
    ((FortinProcessor.after 8 fourByteOps).reset.feed exampleFrame).2
      = ((FortinProcessor.fresh 8).feed exampleFrame).2 ∧
    ∀ k, ((FortinProcessor.after 8 fourByteOps).reset.feed (exampleFrame.take k)).2
          = ((FortinProcessor.fresh 8).feed (exampleFrame.take k)).2 ∧
        ((FortinProcessor.after 8 fourByteOps).reset.feed (exampleFrame.take k)).1.m_buffer.length
          = ((FortinProcessor.fresh 8).feed (exampleFrame.take k)).1.m_buffer.length ∧
        FortinProcessor.copyMessage
            ((FortinProcessor.after 8 fourByteOps).reset.feed (exampleFrame.take k)).1.m_buffer
          = FortinProcessor.copyMessage
            ((FortinProcessor.fresh 8).feed (exampleFrame.take k)).1.m_buffer) :=
  ⟨by decide, reset_makes_stale_storage_inert 8 (by decide) fourByteOps exampleFrame⟩

/-! ## The capacity test as written -/

/-- C12, evaluation at the failing input: on a fresh reassembler of capacity 8
fed the nine bytes `overrunBytes`, the first byte stored is `0x0C`, but the
ninth append lands on physical slot 0, so the state of length 9 reads `0xFF`
at offset 0; the next call `add 0xAA` empties the buffer in its capacity test
and then stores `0xAA`: the length is 1 and offset 0 reads `0xAA`. -/
theorem sync_byte_lost_at_capacity :
    ((FortinProcessor.fresh 8).feed (overrunBytes.take 8)).1.m_buffer.getFromBuffer 0 = 0x0C ∧
    ((FortinProcessor.fresh 8).feed overrunBytes).1.m_buffer.length = 9 ∧
    ((FortinProcessor.fresh 8).feed overrunBytes).1.m_buffer.getFromBuffer 0 = 0xFF ∧
    (((FortinProcessor.fresh 8).feed overrunBytes).1.add 0xAA).1.m_buffer.length = 1 ∧
    (((FortinProcessor.fresh 8).feed overrunBytes).1.add 0xAA).1.m_buffer.getFromBuffer 0 = 0xAA ∧
    (0xAA : Byte) ≠ 0x0C := by
  decide

/-- C13, evaluation at the failing input: on a fresh reassembler of capacity 8
fed the twenty bytes `twentyBytes`, the handler is never invoked, and the
buffer lengths observed after the successive calls are
`1 .. 9, 1 .. 9, 1, 2`: the length passes `C - 1 = 7` and reaches 9. -/
theorem overrun_scenario_lengths :
    (∀ calls ∈ ((FortinProcessor.fresh 8).feed twentyBytes).2, calls = []) ∧
    (List.range 21).map
        (fun k => ((FortinProcessor.fresh 8).feed (twentyBytes.take k)).1.m_buffer.length)
      = [0, 1, 2, 3, 4, 5, 6, 7, 8, 9, 1, 2, 3, 4, 5, 6, 7, 8, 9, 1, 2] ∧
    ¬ ((FortinProcessor.fresh 8).feed (twentyBytes.take 9)).1.m_buffer.length ≤ 8 - 1 := by
  decide

theorem FortinProcessor.guardedAppend_last {r : RingBuffer} (h : r.WF)
    (hC : 1 ≤ r.m_buffer_length) (b : Byte) :
    (FortinProcessor.guardedAppend r b).getFromBuffer
      ((FortinProcessor.guardedAppend r b).length - 1) = b := by
  unfold FortinProcessor.guardedAppend
  split
  · exact RingBuffer.getFromBuffer_addToBuffer_last (RingBuffer.reset_WF h) hC b
  · exact RingBuffer.getFromBuffer_addToBuffer_last h hC b

theorem FortinProcessor.not_dispatches_of_ne_terminator {p : FortinProcessor}
    (h : p.m_buffer.WF) (hC : 1 ≤ p.m_buffer.m_buffer_length) {b : Byte} (hb : b ≠ 0x0D) :
    ¬ p.dispatches b := by
  rintro ⟨_, h7, _, _, ht, _⟩
  rw [FortinProcessor.copyMessage_getD _ (by omega),
    FortinProcessor.guardedAppend_last h hC b] at ht
  exact hb ht

theorem FortinProcessor.feed_sync_bytes (C : Nat) (hC : 1 ≤ C) (n : Nat) (hn : n ≤ C + 1) :
    (FortinProcessor.fresh C).feed (List.replicate n 0x0C)
      = ({ m_buffer := (FortinProcessor.fresh C).m_buffer.addAll (List.replicate n 0x0C) },
          List.replicate n []) := by
  induction n with
  | zero => rfl
  | succ n ih =>
    have ih' := ih (by omega)
    obtain ⟨h1, h2, _, h4⟩ := RingBuffer.addAll_facts (FortinProcessor.fresh C).m_buffer
      (RingBuffer.construct_WF C) (List.replicate n 0x0C)
    have hcap : (FortinProcessor.fresh C).m_buffer.m_buffer_length = C := rfl
    have hl0 : (FortinProcessor.fresh C).m_buffer.length = 0 := rfl
    rw [hcap] at h2
    rw [hl0, List.length_replicate, Nat.zero_add] at h4
    have hnd : ¬ FortinProcessor.dispatches
        { m_buffer := (FortinProcessor.fresh C).m_buffer.addAll (List.replicate n 0x0C) } 0x0C :=
      FortinProcessor.not_dispatches_of_ne_terminator h1 (h2.symm ▸ hC) (by decide)
    obtain ⟨hc, hs⟩ := FortinProcessor.add_of_not_dispatches hnd
    rw [if_neg (fun hi => hi.2 rfl),
      FortinProcessor.guardedAppend_of_le (by rw [h2, h4]; omega),
      ← RingBuffer.addAll_append, ← List.replicate_succ'] at hs
    rw [List.replicate_succ', FortinProcessor.feed_snoc, ih']
    simp only [hc, hs]
    rw [← List.replicate_succ', ← List.replicate_succ']

/-- C18, actual bound on the buffer state: for every capacity `C >= 1`, in
every state reachable from a fresh reassembler by `add` and `reset()` calls
the start offset is 0 and `0 <= length <= C + 1`; and `C + 1` is attained:
after `C + 1` bytes `0x0C` no handler call was made and the length is `C + 1`. -/
theorem actual_length_bound (C : Nat) (hC : 1 ≤ C) :
    (∀ ops : List Op, (FortinProcessor.after C ops).m_buffer.m_start_message = 0 ∧
      0 ≤ (FortinProcessor.after C ops).m_buffer.length ∧
      (FortinProcessor.after C ops).m_buffer.length ≤ C + 1) ∧
    ((FortinProcessor.fresh C).feed (List.replicate (C + 1) 0x0C)).1.m_buffer.length = C + 1 ∧
    (∀ calls ∈ ((FortinProcessor.fresh C).feed (List.replicate (C + 1) 0x0C)).2, calls = []) := by
  refine ⟨fun ops => ?_, ?_, ?_⟩
  · obtain ⟨_, _, h3, h4⟩ := FortinProcessor.Inv_after C ops
    exact ⟨h3, Nat.zero_le _, h4⟩
  · rw [FortinProcessor.feed_sync_bytes C hC (C + 1) (Nat.le_refl _)]
    have h4 := (RingBuffer.addAll_facts (FortinProcessor.fresh C).m_buffer
      (RingBuffer.construct_WF C) (List.replicate (C + 1) 0x0C)).2.2.2
    rw [List.length_replicate] at h4
    rw [h4]
    exact Nat.zero_add _
  · rw [FortinProcessor.feed_sync_bytes C hC (C + 1) (Nat.le_refl _)]
    exact fun calls hc => List.eq_of_mem_replicate hc

theorem actual_length_bound_witness :
    1 ≤ 8 ∧
    ((∀ ops : List Op, (FortinProcessor.after 8 ops).m_buffer.m_start_message = 0 ∧
      0 ≤ (FortinProcessor.after 8 ops).m_buffer.length ∧
      (FortinProcessor.after 8 ops).m_buffer.length ≤ 8 + 1) ∧
    ((FortinProcessor.fresh 8).feed (List.replicate (8 + 1) 0x0C)).1.m_buffer.length = 8 + 1 ∧
    (∀ calls ∈ ((FortinProcessor.fresh 8).feed (List.replicate (8 + 1) 0x0C)).2, calls = [])) :=
  ⟨by decide, actual_length_bound 8 (by decide)⟩

/-- C14, the capacity test exactly as written: in every state reachable from a
fresh reassembler of capacity `C >= 1`, `add b` executes the `reset()` of its
capacity test if and only if the length on entry is `C + 1`; in that case, for
every `b`, `add` returns with length 1, offset 0 reading `b`, and no handler
call; with entry length between 1 and `C` the byte is appended with no reset
before it; and at entry length `C` the append writes `b` to physical slot 0
and makes the length `C + 1` (which it still is on return unless the handler
was invoked). -/
theorem capacity_guard_as_written (C : Nat) (hC : 1 ≤ C) (ops : List Op) (b : Byte) :
    ((FortinProcessor.after C ops).guardResets b ↔
      (FortinProcessor.after C ops).m_buffer.length = C + 1) ∧
    ((FortinProcessor.after C ops).m_buffer.length = C + 1 →
      (FortinProcessor.after C ops).add b
        = ({ m_buffer := (FortinProcessor.after C ops).m_buffer.reset.addToBuffer b }, []) ∧
      ((FortinProcessor.after C ops).add b).1.m_buffer.length = 1 ∧
      ((FortinProcessor.after C ops).add b).1.m_buffer.getFromBuffer 0 = b) ∧
    (1 ≤ (FortinProcessor.after C ops).m_buffer.length ∧
        (FortinProcessor.after C ops).m_buffer.length ≤ C →
      ¬ (FortinProcessor.after C ops).guardResets b ∧
      FortinProcessor.guardedAppend (FortinProcessor.after C ops).m_buffer b
        = (FortinProcessor.after C ops).m_buffer.addToBuffer b) ∧
    ((FortinProcessor.after C ops).m_buffer.length = C →
      (FortinProcessor.guardedAppend (FortinProcessor.after C ops).m_buffer b).m_buffer
        = (FortinProcessor.after C ops).m_buffer.m_buffer.set 0 b ∧
      (FortinProcessor.guardedAppend (FortinProcessor.after C ops).m_buffer b).length = C + 1 ∧
      (((FortinProcessor.after C ops).add b).2 = [] →
        ((FortinProcessor.after C ops).add b).1.m_buffer.length = C + 1)) := by
  obtain ⟨h1, h2, h3, h4⟩ := FortinProcessor.Inv_after C ops
  have hiff : (FortinProcessor.after C ops).guardResets b ↔
      (FortinProcessor.after C ops).m_buffer.length = C + 1 := by
    unfold FortinProcessor.guardResets
    simp only [RingBuffer.maxLength, h2]
    constructor
    · rintro ⟨_, hg⟩; omega
    · intro hl; exact ⟨fun hi => by omega, by omega⟩
  refine ⟨hiff, fun hl => ?_, fun hl => ?_, fun hl => ?_⟩
  · have hga : FortinProcessor.guardedAppend (FortinProcessor.after C ops).m_buffer b
        = (FortinProcessor.after C ops).m_buffer.reset.addToBuffer b := by
      unfold FortinProcessor.guardedAppend
      have hg : ((FortinProcessor.after C ops).m_buffer.maxLength : Int)
          = ((FortinProcessor.after C ops).m_buffer.length : Int) - 1 := by
        simp only [RingBuffer.maxLength, h2]; omega
      simp only [if_pos hg]
    have hnd : ¬ (FortinProcessor.after C ops).dispatches b := by
      rintro ⟨_, h7, _, _⟩
      rw [hga] at h7
      simp [RingBuffer.length, RingBuffer.addToBuffer, RingBuffer.reset] at h7
    obtain ⟨hc, hs⟩ := FortinProcessor.add_of_not_dispatches hnd
    rw [if_neg (fun hi => by omega), hga] at hs
    refine ⟨Prod.ext hs hc, by rw [hs]; rfl, ?_⟩
    rw [hs]
    exact RingBuffer.getFromBuffer_addToBuffer_last (RingBuffer.reset_WF h1) (h2.symm ▸ hC) b
  · exact ⟨fun hg => by have := hiff.mp hg; omega,
      FortinProcessor.guardedAppend_of_le (by rw [h2]; exact hl.2) b⟩
  · have hga := FortinProcessor.guardedAppend_of_le
      (r := (FortinProcessor.after C ops).m_buffer) (by rw [h2, hl]) b
    have hl' : (FortinProcessor.after C ops).m_buffer.m_message_length = C := hl
    refine ⟨?_, ?_, fun hc => ?_⟩
    · rw [hga]
      simp only [RingBuffer.addToBuffer, h3, h2, hl', Nat.zero_add, Nat.mod_self]
    · rw [hga]
      simp only [RingBuffer.length, RingBuffer.addToBuffer, hl']
    · have hnd : ¬ (FortinProcessor.after C ops).dispatches b := by
        intro hd
        rw [FortinProcessor.add_of_dispatches hd] at hc
        exact List.cons_ne_nil _ _ hc
      have hs := (FortinProcessor.add_of_not_dispatches hnd).2
      rw [if_neg (fun hi => by omega), hga] at hs
      rw [hs]
      simp only [RingBuffer.length, RingBuffer.addToBuffer, hl']

theorem capacity_guard_as_written_witness :
    1 ≤ 8 ∧
    ((FortinProcessor.after 8 (overrunBytes.map Op.add)).guardResets 0xAA ↔
      (FortinProcessor.after 8 (overrunBytes.map Op.add)).m_buffer.length = 8 + 1) ∧
    (FortinProcessor.after 8 (overrunBytes.map Op.add)).m_buffer.length = 8 + 1 ∧
    ((FortinProcessor.after 8 (overrunBytes.map Op.add)).add 0xAA).1.m_buffer.length = 1 ∧
    ((FortinProcessor.after 8 (overrunBytes.map Op.add)).add 0xAA).1.m_buffer.getFromBuffer 0
      = 0xAA :=
  ⟨by decide, (capacity_guard_as_written 8 (by decide) (overrunBytes.map Op.add) 0xAA).1,
    by decide,
    ((capacity_guard_as_written 8 (by decide) (overrunBytes.map Op.add) 0xAA).2.1
      (by decide)).2⟩

/-! ## Dispatched frames and the input stream -/

theorem FortinProcessor.after_snoc (C : Nat) (ops : List Op) (o : Op) :
    FortinProcessor.after C (ops ++ [o]) = ((FortinProcessor.after C ops).step o).1 := by
  simp [FortinProcessor.after, FortinProcessor.run_append, FortinProcessor.run]

theorem FortinProcessor.copyMessage_guardedAppend {C : Nat} (hC : 1 ≤ C) {p : FortinProcessor}
    (h : FortinProcessor.Inv C p) (b : Byte)
    (hfit : (FortinProcessor.guardedAppend p.m_buffer b).length ≤ C) :
    (p.m_buffer.length = C + 1 ∧ FortinProcessor.copyMessage (FortinProcessor.guardedAppend p.m_buffer b) = [b]) ∨
    (p.m_buffer.length < C ∧ FortinProcessor.copyMessage (FortinProcessor.guardedAppend p.m_buffer b)
        = FortinProcessor.copyMessage p.m_buffer ++ [b]) := by
  obtain ⟨h1, h2, _, h4⟩ := h
  by_cases hg : (p.m_buffer.maxLength : Int) = (p.m_buffer.length : Int) - 1
  · left
    have hga : FortinProcessor.guardedAppend p.m_buffer b = p.m_buffer.reset.addToBuffer b := by
      unfold FortinProcessor.guardedAppend
      simp only [if_pos hg]
    refine ⟨by simp only [RingBuffer.maxLength, h2] at hg; omega, ?_⟩
    rw [hga, FortinProcessor.copyMessage_addToBuffer (RingBuffer.reset_WF h1)
      (show p.m_buffer.reset.length < p.m_buffer.reset.m_buffer_length from by
        show 0 < p.m_buffer.m_buffer_length
        omega),
      FortinProcessor.copyMessage_of_length_zero (r := p.m_buffer.reset) rfl, List.nil_append]
  · right
    have hga : FortinProcessor.guardedAppend p.m_buffer b = p.m_buffer.addToBuffer b := by
      unfold FortinProcessor.guardedAppend
      simp only [if_neg hg]
    rw [hga] at hfit ⊢
    have hlt : p.m_buffer.length < C := by
      simp only [RingBuffer.length, RingBuffer.addToBuffer] at hfit ⊢
      omega
    exact ⟨hlt, FortinProcessor.copyMessage_addToBuffer h1 (by rw [h2]; exact hlt) b⟩

theorem FortinProcessor.contents_are_latest_adds (C : Nat) (hC : 1 ≤ C) (ops : List Op) :
    (FortinProcessor.after C ops).m_buffer.length ≤ C →
      ∃ pre, ops = pre ++
        (FortinProcessor.copyMessage (FortinProcessor.after C ops).m_buffer).map Op.add := by
  induction ops using List.reverseRecOn with
  | nil => intro _; exact ⟨[], rfl⟩
  | append_singleton ops o ih =>
    have hinv := FortinProcessor.Inv_after C ops
    rw [FortinProcessor.after_snoc]
    cases o with
    | reset =>
      intro _
      exact ⟨ops ++ [Op.reset], by
        simp [FortinProcessor.step, FortinProcessor.reset,
          FortinProcessor.copyMessage_of_length_zero (r := (FortinProcessor.after C ops).m_buffer.reset) rfl]⟩
    | add b =>
      simp only [FortinProcessor.step]
      by_cases hd : (FortinProcessor.after C ops).dispatches b
      · intro _
        rw [FortinProcessor.add_of_dispatches hd]
        exact ⟨ops ++ [Op.add b], by
          simp [FortinProcessor.copyMessage_of_length_zero
            (r := (FortinProcessor.guardedAppend (FortinProcessor.after C ops).m_buffer b).reset) rfl]⟩
      · rw [(FortinProcessor.add_of_not_dispatches hd).2]
        by_cases hi : (FortinProcessor.after C ops).m_buffer.length = 0 ∧ b ≠ 0x0C
        · rw [if_pos hi]
          intro _
          exact ⟨ops ++ [Op.add b], by
            simp [FortinProcessor.copyMessage_of_length_zero hi.1]⟩
        · rw [if_neg hi]
          intro hfit
          rcases FortinProcessor.copyMessage_guardedAppend hC hinv b hfit with ⟨_, hcm⟩ | ⟨hlt, hcm⟩
          · exact ⟨ops, by simp [hcm]⟩
          · obtain ⟨pre, hpre⟩ := ih (by omega)
            refine ⟨pre, ?_⟩
            simp only [hcm, List.map_append, List.map_cons, List.map_nil, ← List.append_assoc]
            rw [← hpre]

/-- C16, dispatched frames are a contiguous slice of the input: for every
capacity `C >= 262` and every sequence of `add` and `reset()` calls on a fresh
reassembler, whenever a call `add b` invokes the handler with `(message, L)`,
the calls made so far end with exactly `L` consecutive `add` calls whose
bytes, in order, are `message` (the last one being `b`): nothing was dropped,
duplicated or overwritten in between, and no `reset()` lies among them. -/
theorem dispatched_frame_is_input_slice (C : Nat) (hC : 262 ≤ C) (ops : List Op) (b : Byte)
    (message : List Byte) (L : Nat)
    (h : (message, L) ∈ ((FortinProcessor.after C ops).add b).2) :
    message.length = L ∧ ∃ pre, ops ++ [Op.add b] = pre ++ message.map Op.add := by
  have he := FortinProcessor.eq_of_mem h
  obtain ⟨_, h7, hl, _⟩ := FortinProcessor.dispatches_of_mem h
  rw [Prod.mk.injEq] at he
  have hinv := FortinProcessor.Inv_after C ops
  have hb := ((FortinProcessor.guardedAppend (FortinProcessor.after C ops).m_buffer b).getFromBuffer 4).isLt
  have hfit : (FortinProcessor.guardedAppend (FortinProcessor.after C ops).m_buffer b).length ≤ C := by
    omega
  refine ⟨by rw [he.1, he.2, FortinProcessor.copyMessage_length], ?_⟩
  rcases FortinProcessor.copyMessage_guardedAppend (by omega) hinv b hfit with ⟨_, hcm⟩ | ⟨hlt, hcm⟩
  · have := FortinProcessor.copyMessage_length
      (FortinProcessor.guardedAppend (FortinProcessor.after C ops).m_buffer b)
    rw [hcm] at this
    simp only [List.length_singleton] at this
    omega
  · obtain ⟨pre, hpre⟩ := FortinProcessor.contents_are_latest_adds C (by omega) ops (by omega)
    refine ⟨pre, ?_⟩
    rw [he.1, hcm]
    simp only [List.map_append, List.map_cons, List.map_nil, ← List.append_assoc]
    rw [← hpre]

theorem dispatched_frame_is_input_slice_witness :
    262 ≤ 262 ∧ (exampleFrame, 7) ∈ ((FortinProcessor.after 262 exampleOps).add 0x0D).2 ∧
    (exampleFrame.length = 7 ∧
      ∃ pre, exampleOps ++ [Op.add 0x0D] = pre ++ exampleFrame.map Op.add) :=
  ⟨by decide, by decide,
    dispatched_frame_is_input_slice 262 (by decide) exampleOps 0x0D exampleFrame 7 (by decide)⟩

/-! ## One validation attempt per accumulation cycle -/

theorem FortinProcessor.feed_past_candidate (C g : Nat) (w : List Byte) :
    ∀ q : FortinProcessor, q.m_buffer.WF → q.m_buffer.m_buffer_length = C →
      q.m_buffer.m_start_message = 0 → (q.m_buffer.getFromBuffer 4).val = g →
      g + 7 ≤ q.m_buffer.length → q.m_buffer.length + w.length ≤ C + 1 →
      (q.feed w).2 = List.replicate w.length [] ∧
      (q.feed w).1.m_buffer.length = q.m_buffer.length + w.length ∧
      ((q.feed w).1.m_buffer.getFromBuffer 4).val = g := by
  induction w with
  | nil => intro q _ _ _ hg _ _; exact ⟨rfl, rfl, hg⟩
  | cons b w ih =>
    intro q hwf hcap hstart hg hlen hfit
    simp only [List.length_cons] at hfit
    have hlen' : 7 ≤ q.m_buffer.m_message_length := by
      have : g + 7 ≤ q.m_buffer.m_message_length := hlen
      omega
    have hle : q.m_buffer.m_message_length ≤ C := by
      have : q.m_buffer.m_message_length + (w.length + 1) ≤ C + 1 := hfit
      omega
    have hga := FortinProcessor.guardedAppend_of_le (r := q.m_buffer)
      (by rw [hcap]; exact hle) b
    have hslot : ¬ ((q.m_buffer.m_start_message + q.m_buffer.m_message_length) % q.m_buffer.m_buffer_length
        = (q.m_buffer.m_start_message + 4) % q.m_buffer.m_buffer_length) := by
      rw [hstart, hcap, Nat.zero_add, Nat.zero_add, Nat.mod_eq_of_lt (by omega : 4 < C)]
      rcases Nat.lt_or_ge q.m_buffer.m_message_length C with hl | hl
      · rw [Nat.mod_eq_of_lt hl]; omega
      · have : q.m_buffer.m_message_length = C := by omega
        rw [this, Nat.mod_self]; omega
    have hget : ((q.m_buffer.addToBuffer b).getFromBuffer 4).val = g := by
      rw [RingBuffer.getFromBuffer_addToBuffer hwf (by rw [hcap]; omega), if_neg hslot]
      exact hg
    have hlen1 : (q.m_buffer.addToBuffer b).length = q.m_buffer.m_message_length + 1 := rfl
    have hnd : ¬ q.dispatches b := by
      rintro ⟨_, _, hl, _⟩
      rw [hga, hget, hlen1] at hl
      have : g + 7 ≤ q.m_buffer.m_message_length := hlen
      omega
    obtain ⟨hc, hs⟩ := FortinProcessor.add_of_not_dispatches hnd
    rw [if_neg (fun hi => by have : q.m_buffer.m_message_length = 0 := hi.1; omega), hga] at hs
    obtain ⟨ih1, ih2, ih3⟩ := ih { m_buffer := q.m_buffer.addToBuffer b }
      (RingBuffer.addToBuffer_WF hwf b) hcap hstart hget
      (by show g + 7 ≤ q.m_buffer.m_message_length + 1
          have : g + 7 ≤ q.m_buffer.m_message_length := hlen
          omega)
      (by show q.m_buffer.m_message_length + 1 + w.length ≤ C + 1
          have : q.m_buffer.m_message_length + (w.length + 1) ≤ C + 1 := hfit
          omega)
    simp only [FortinProcessor.feed] at ih1 ih2 ih3
    simp only [FortinProcessor.feed, List.map_cons, FortinProcessor.run, FortinProcessor.step,
      hc, hs, ih1, ih2, ih3, List.length_cons, List.replicate_succ, hlen1]
    refine ⟨trivial, ?_, trivial⟩
    show q.m_buffer.m_message_length + 1 + w.length = q.m_buffer.m_message_length + (w.length + 1)
    omega

/-- C17, at most one validation attempt per accumulation cycle: in a state
reachable from a fresh reassembler of capacity `C >= 1`, let `add b` bring the
buffer to `length = getFromBuffer(4) + 7` and reject the candidate (no handler
call).  Then the candidate stays in the buffer, and for every further bytes
`w` fed while the length stays within `C + 1`: no handler call is made, the
length grows by one per byte (no reset happens before the length has reached
`C + 1`), the byte at offset 4 keeps its value, and after every such byte the
test `length = getFromBuffer(4) + 7` is false. -/
theorem one_validation_per_cycle (C : Nat) (_hC : 1 ≤ C) (ops : List Op) (b : Byte)
    (hcand : (FortinProcessor.guardedAppend (FortinProcessor.after C ops).m_buffer b).length
      = ((FortinProcessor.guardedAppend (FortinProcessor.after C ops).m_buffer b).getFromBuffer 4).val + 7)
    (hrej : ((FortinProcessor.after C ops).add b).2 = [])
    (w : List Byte)
    (hw : ((FortinProcessor.after C ops).add b).1.m_buffer.length + w.length ≤ C + 1) :
    ((FortinProcessor.after C ops).add b).1.m_buffer
      = FortinProcessor.guardedAppend (FortinProcessor.after C ops).m_buffer b ∧
    (((FortinProcessor.after C ops).add b).1.feed w).2 = List.replicate w.length [] ∧
    (((FortinProcessor.after C ops).add b).1.feed w).1.m_buffer.length
      = ((FortinProcessor.after C ops).add b).1.m_buffer.length + w.length ∧
    (((FortinProcessor.after C ops).add b).1.feed w).1.m_buffer.getFromBuffer 4
      = ((FortinProcessor.after C ops).add b).1.m_buffer.getFromBuffer 4 ∧
    (w ≠ [] → (((FortinProcessor.after C ops).add b).1.feed w).1.m_buffer.length
      ≠ ((((FortinProcessor.after C ops).add b).1.feed w).1.m_buffer.getFromBuffer 4).val + 7) := by
  have hinv := FortinProcessor.Inv_after C ops
  obtain ⟨g1, g2, g3, _⟩ := FortinProcessor.Inv_guardedAppend hinv b
  have hni : ¬ ((FortinProcessor.after C ops).m_buffer.length = 0 ∧ b ≠ 0x0C) := by
    rintro ⟨hz, _⟩
    rw [FortinProcessor.guardedAppend_of_le (by rw [hz]; exact Nat.zero_le _)] at hcand
    have hz' : (FortinProcessor.after C ops).m_buffer.m_message_length = 0 := hz
    simp only [RingBuffer.length, RingBuffer.addToBuffer, hz'] at hcand
    omega
  have hnd : ¬ (FortinProcessor.after C ops).dispatches b := by
    intro hd
    rw [FortinProcessor.add_of_dispatches hd] at hrej
    exact List.cons_ne_nil _ _ hrej
  have hs := (FortinProcessor.add_of_not_dispatches hnd).2
  rw [if_neg hni] at hs
  rw [hs] at hw ⊢
  obtain ⟨f1, f2, f3⟩ := FortinProcessor.feed_past_candidate C
    ((FortinProcessor.guardedAppend (FortinProcessor.after C ops).m_buffer b).getFromBuffer 4).val w
    { m_buffer := FortinProcessor.guardedAppend (FortinProcessor.after C ops).m_buffer b }
    g1 g2 g3 rfl (by rw [← hcand]) hw
  refine ⟨rfl, f1, f2, Fin.ext f3, fun hne => ?_⟩
  rw [f2, f3]
  have : 0 < w.length := List.length_pos.mpr hne
  show (FortinProcessor.guardedAppend (FortinProcessor.after C ops).m_buffer b).length + w.length ≠ _
  omega

theorem one_validation_per_cycle_witness :
    1 ≤ 8 ∧
    (FortinProcessor.guardedAppend (FortinProcessor.after 8 badChecksumOps).m_buffer 0x0D).length
      = ((FortinProcessor.guardedAppend
          (FortinProcessor.after 8 badChecksumOps).m_buffer 0x0D).getFromBuffer 4).val + 7 ∧
    ((FortinProcessor.after 8 badChecksumOps).add 0x0D).2 = [] ∧
    ((FortinProcessor.after 8 badChecksumOps).add 0x0D).1.m_buffer.length
      + ([0x06, 0x0D] : List Byte).length ≤ 8 + 1 ∧
    (((FortinProcessor.after 8 badChecksumOps).add 0x0D).1.feed [0x06, 0x0D]).2
      = List.replicate ([0x06, 0x0D] : List Byte).length [] ∧
    (((FortinProcessor.after 8 badChecksumOps).add 0x0D).1.feed [0x06, 0x0D]).1.m_buffer.length
      = ((FortinProcessor.after 8 badChecksumOps).add 0x0D).1.m_buffer.length
        + ([0x06, 0x0D] : List Byte).length :=
  ⟨by decide, by decide, by decide, by decide,
    (one_validation_per_cycle 8 (by decide) badChecksumOps 0x0D (by decide) (by decide)
      [0x06, 0x0D] (by decide)).2.1,
    (one_validation_per_cycle 8 (by decide) badChecksumOps 0x0D (by decide) (by decide)
      [0x06, 0x0D] (by decide)).2.2.1⟩

/-! ## The read contract of the buffer -/

theorem RingBuffer.getFromBufferMonitored_ok {r : RingBuffer} (hC : r.m_buffer_length ≠ 0)
    {i : Nat} (hi : i < r.length) :
    r.getFromBufferMonitored i = Except.ok (r.getFromBuffer i) := by
  unfold RingBuffer.getFromBufferMonitored
  rw [if_neg (fun h => h hi), if_neg hC]

theorem FortinProcessor.copyLoopMonitored_ok {r : RingBuffer} (hC : r.m_buffer_length ≠ 0)
    (is : List Nat) (his : ∀ i ∈ is, i < r.length) :
    FortinProcessor.copyLoopMonitored r is = Except.ok (is.map r.getFromBuffer) := by
  induction is with
  | nil => rfl
  | cons i is ih =>
    unfold FortinProcessor.copyLoopMonitored
    rw [RingBuffer.getFromBufferMonitored_ok hC (his i (List.mem_cons_self _ _)),
      ih (fun j hj => his j (List.mem_cons_of_mem _ hj))]
    rfl

theorem FortinProcessor.messageAt_ok {message : List Byte} {length j : Nat}
    (hlen : message.length = length) (hj : j < length) :
    FortinProcessor.messageAt message length j = Except.ok (message.getD j 0) := by
  unfold FortinProcessor.messageAt
  rw [if_pos hj, List.getD_eq_getElem?_getD, List.getElem?_eq_getElem (by omega)]
  rfl

theorem FortinProcessor.checksumLoopMonitored_ok {message : List Byte} {length : Nat}
    (hlen : message.length = length) (is : List Nat) (his : ∀ i ∈ is, i < length)
    (checksum : Nat) :
    FortinProcessor.checksumLoopMonitored message length is checksum
      = Except.ok (is.foldl (fun c i => (c + (message.getD i 0).val) % 256) checksum) := by
  induction is generalizing checksum with
  | nil => rfl
  | cons i is ih =>
    unfold FortinProcessor.checksumLoopMonitored
    rw [FortinProcessor.messageAt_ok hlen (his i (List.mem_cons_self _ _))]
    exact ih (fun j hj => his j (List.mem_cons_of_mem _ hj)) _

theorem FortinProcessor.handlePotentiallyValidMonitored_ok (p : FortinProcessor)
    {message : List Byte} {length : Nat} (hlen : message.length = length) (h3 : 3 ≤ length) :
    p.handlePotentiallyValidMonitored message length
      = Except.ok (p.handlePotentiallyValid message length) := by
  unfold FortinProcessor.handlePotentiallyValidMonitored FortinProcessor.handlePotentiallyValid
  rw [if_neg (by omega), FortinProcessor.messageAt_ok hlen (by omega)]
  by_cases ht : message.getD (length - 1) 0 ≠ 0x0D
  · rw [if_pos (Or.inr ht)]
    simp only [if_pos ht]
  · rw [if_neg (by rintro (hl | hne); exacts [by omega, ht hne])]
    simp only [if_neg ht]
    rw [FortinProcessor.checksumLoopMonitored_ok hlen _
      (fun i hi => by have := List.mem_range'_1.mp hi; omega),
      FortinProcessor.messageAt_ok hlen (by omega)]
    dsimp only [FortinProcessor.checksumLoop]
    split <;> rfl

theorem FortinProcessor.addMonitored_ok {p : FortinProcessor}
    (hC : p.m_buffer.m_buffer_length ≠ 0) (b : Byte) :
    p.addMonitored b = Except.ok (p.add b) := by
  unfold FortinProcessor.addMonitored FortinProcessor.add FortinProcessor.guardedAppend
  by_cases hi : p.m_buffer.length = 0 ∧ b ≠ 0x0C
  · rw [if_pos hi, if_pos hi]
  · rw [if_neg hi, if_neg hi]
    have hC1 : (if (p.m_buffer.maxLength : Int) = (p.m_buffer.length : Int) - 1
        then p.m_buffer.reset else p.m_buffer).m_buffer_length ≠ 0 := by
      split
      · exact hC
      · exact hC
    generalize (if (p.m_buffer.maxLength : Int) = (p.m_buffer.length : Int) - 1
        then p.m_buffer.reset else p.m_buffer) = r1 at hC1 ⊢
    have hadd : r1.addToBufferMonitored b = Except.ok (r1.addToBuffer b) := by
      unfold RingBuffer.addToBufferMonitored
      rw [if_neg hC1]
    have hC2 : (r1.addToBuffer b).m_buffer_length ≠ 0 := hC1
    simp only [hadd]
    generalize r1.addToBuffer b = r at hC2 ⊢
    by_cases h7 : 7 ≤ r.length
    · simp only [if_pos h7, RingBuffer.getFromBufferMonitored_ok hC2 (by omega : 4 < r.length)]
      by_cases hl : r.length ≠ (r.getFromBuffer 4).val + 7
      · simp only [if_pos hl]
      · simp only [if_neg hl,
          FortinProcessor.copyLoopMonitored_ok hC2 _ (fun i hi => List.mem_range.mp hi)]
        exact FortinProcessor.handlePotentiallyValidMonitored_ok _
          (FortinProcessor.copyMessage_length r) (by omega)
    · simp only [if_neg h7]

/-- The monitor is not vacuous: it reports a modulo by a zero capacity, a read
outside the logical window, an access past the message array, and the
`length < 3` branch, when they are made to happen. -/
theorem monitor_reports :
    (FortinProcessor.fresh 0).addMonitored 0x0C = Except.error Report.moduloByZero ∧
    (RingBuffer.construct 8).getFromBufferMonitored 4
      = Except.error (Report.readOutsideLength 4 0) ∧
    FortinProcessor.messageAt [0x0C, 0x0D] 2 2 = Except.error (Report.messageIndex 2 2) ∧
    (FortinProcessor.fresh 8).handlePotentiallyValidMonitored [0x0C, 0x0D] 2
      = Except.error (Report.lengthBelowThree 2) :=
  ⟨rfl, rfl, rfl, rfl⟩

/-- C15, the reassembler respects the read contract of the buffer: in every
state reachable from a fresh reassembler of capacity `C >= 1`, the monitored
execution of `add b` finishes without a report and with the result of `add b`.
So every `getFromBuffer(i)` executed inside `add` has `i < length()`, every
access `message[j]` in `handlePotentiallyValid` has `j < length`, no modulo is
taken by a zero capacity, and the `length < 3` branch is not reached; in
particular the call to `handlePotentiallyValid`, when made, has
`length >= 7`. -/
theorem read_contract_respected (C : Nat) (hC : 1 ≤ C) (ops : List Op) (b : Byte) :
    (FortinProcessor.after C ops).addMonitored b
      = Except.ok ((FortinProcessor.after C ops).add b) ∧
    (FortinProcessor.after C ops).m_buffer.maxLength ≠ 0 ∧
    (∀ c ∈ ((FortinProcessor.after C ops).add b).2, 7 ≤ c.2 ∧ c.1.length = c.2) := by
  obtain ⟨_, h2, _, _⟩ := FortinProcessor.Inv_after C ops
  have hne : (FortinProcessor.after C ops).m_buffer.m_buffer_length ≠ 0 := by omega
  refine ⟨FortinProcessor.addMonitored_ok hne b, hne, fun c hc => ?_⟩
  have he := FortinProcessor.eq_of_mem hc
  obtain ⟨_, h7, _, _⟩ := FortinProcessor.dispatches_of_mem hc
  rw [he]
  exact ⟨h7, FortinProcessor.copyMessage_length _⟩

theorem read_contract_respected_witness :
    1 ≤ 8 ∧
    (FortinProcessor.after 8 exampleOps).addMonitored 0x0D
      = Except.ok ((FortinProcessor.after 8 exampleOps).add 0x0D) :=
  ⟨by decide, (read_contract_respected 8 (by decide) exampleOps 0x0D).1⟩

/-! ## The shell's input index -/

theorem Shell.processChar_bounds (s : Shell) (c : Int)
    (h : 0 ≤ s._inBufferIndex ∧ s._inBufferIndex ≤ 125) :
    (0 ≤ (s.processChar c).1._inBufferIndex ∧ (s.processChar c).1._inBufferIndex ≤ 125) ∧
    ∀ i ∈ (s.processChar c).2, 0 ≤ i ∧ i ≤ 125 := by
  have h0 : (0 : Int) ≤ 0 ∧ (0 : Int) ≤ 125 := ⟨Int.le_refl 0, by decide⟩
  unfold Shell.processChar
  split
  · exact ⟨h, fun i hi => absurd hi (List.not_mem_nil i)⟩
  split
  · exact ⟨h, fun i hi => absurd hi (List.not_mem_nil i)⟩
  split
  · refine ⟨h0, fun i hi => ?_⟩
    rw [List.mem_singleton] at hi
    rw [hi]; exact h
  split
  · split
    · refine ⟨?_, fun i hi => absurd hi (List.not_mem_nil i)⟩
      show 0 ≤ s._inBufferIndex - 1 ∧ s._inBufferIndex - 1 ≤ 125
      omega
    · exact ⟨h, fun i hi => absurd hi (List.not_mem_nil i)⟩
  split
  · exact ⟨h0, fun i hi => absurd hi (List.not_mem_nil i)⟩
  · dsimp only
    split
    · refine ⟨h0, fun i hi => ?_⟩
      rw [List.mem_singleton] at hi
      rw [hi]; exact h
    · rename_i hne
      refine ⟨?_, fun i hi => ?_⟩
      · have hne' : ¬ (s._inBufferIndex + 1 = 128 - 2) := hne
        show 0 ≤ s._inBufferIndex + 1 ∧ s._inBufferIndex + 1 ≤ 125
        omega
      · rw [List.mem_singleton] at hi
        rw [hi]; exact h

theorem Shell.processSerial_bounds (input : List Int) :
    ∀ s : Shell, (0 ≤ s._inBufferIndex ∧ s._inBufferIndex ≤ 125) →
      (0 ≤ (s.processSerial input).1._inBufferIndex ∧
        (s.processSerial input).1._inBufferIndex ≤ 125) ∧
      ∀ i ∈ (s.processSerial input).2, 0 ≤ i ∧ i ≤ 125 := by
  induction input with
  | nil => intro s h; exact ⟨h, fun i hi => absurd hi (List.not_mem_nil i)⟩
  | cons c cs ih =>
    intro s h
    obtain ⟨h1, h2⟩ := Shell.processChar_bounds s c h
    obtain ⟨h3, h4⟩ := ih _ h1
    refine ⟨h3, fun i hi => ?_⟩
    simp only [Shell.processSerial, List.mem_append] at hi
    rcases hi with hi | hi
    · exact h2 i hi
    · exact h4 i hi

/-- C19, the shell's input index stays in bounds: starting from the
constructed shell (`_inBufferIndex = 0`), for every sequence of received
characters, `0 <= _inBufferIndex <= 125` after every character, and every
write to the 128-byte `_inBuffer` (the stored character, and the terminating
`'\0'` on newline) is at an index in `[0, 125]`. -/
theorem shell_index_in_bounds (input : List Int) :
    (∀ k, 0 ≤ (Shell.construct.processSerial (input.take k)).1._inBufferIndex ∧
      (Shell.construct.processSerial (input.take k)).1._inBufferIndex ≤ 125) ∧
    (∀ i ∈ (Shell.construct.processSerial input).2,
      0 ≤ i ∧ i ≤ 125 ∧ i < Shell.sizeofInBuffer) :=
  ⟨fun k => (Shell.processSerial_bounds (input.take k) Shell.construct
      ⟨Int.le_refl 0, by decide⟩).1,
    fun i hi =>
      have h := (Shell.processSerial_bounds input Shell.construct
        ⟨Int.le_refl 0, by decide⟩).2 i hi
      ⟨h.1, h.2, by unfold Shell.sizeofInBuffer; omega⟩⟩
